import Mathlib

/-!
Verification of the lazy sequence-splitting library (split.py): shallow
embedding of `partition`, `chunks`, `groupby` and `split` together with the
schedules of lazy consumers that drive them, and proofs about the claims of
the specification.

Python generators are embedded as explicit state machines: each "pull"
(one call of `next` on a derived iterator) is a Lean function from state to
a result together with the successor state.  The underlying iterator over
the source sequence is a `List` stored in the state; pulling from it pops
the head.  Normal generator exhaustion (StopIteration) is the `stop` result
and an uncaught exception is `err`.
-/

set_option maxRecDepth 4000

namespace SplitLib

/-- Result of advancing a generator one step: a produced item, normal
exhaustion (StopIteration), or an uncaught exception. -/
inductive Pulled (A : Type) where
  | item (a : A)
  | stop
  | err
deriving DecidableEq, Repr

/-- Lookup in an insertion-ordered association list (Python dict lookup). -/
def aget {K V : Type} [DecidableEq K] : List (K × V) → K → Option V
  | [], _ => none
  | (k', v) :: rest, k => if k' = k then some v else aget rest k

/-- Update an insertion-ordered association list: existing keys keep their
position, a fresh key is appended at the end (Python dict assignment). -/
def upsert {K V : Type} [DecidableEq K] : List (K × V) → K → V → List (K × V)
  | [], k, v => [(k, v)]
  | (k', v') :: rest, k, v =>
      if k' = k then (k', v) :: rest else (k', v') :: upsert rest k v

/-- The buffer (deque) stored for key `k`; a missing key denotes the empty
deque that `defaultdict(deque)` would create. -/
def bufGet {K V : Type} [DecidableEq K] (l : List (K × List V)) (k : K) : List V :=
  (aget l k).getD []

/-- `buffers[k].append(x)` on an insertion-ordered dict of deques. -/
def bufApp {K V : Type} [DecidableEq K] (l : List (K × List V)) (k : K) (x : V) :
    List (K × List V) :=
  upsert l k (bufGet l k ++ [x])

/-! ## partition

`partition(condition, sequence)` tees the generator
`(condition(i), i) for i in sequence)` and returns the two filtered views
`(i for pred_value, i in a if pred_value)` and
`(i for pred_value, i in b if not pred_value)`.

The tee pair is embedded explicitly: `src` is the part of the source not yet
pulled by the shared base generator, `qa`/`qb` are the pending deques of the
two tee iterators (a pair pulled on behalf of one side is buffered for the
other).  `outT`/`outF` log the items produced so far by the true/false view
and `evals` logs, in order, every item the predicate has been applied to. -/

structure PartState (T : Type) where
  src : List T
  qa : List (Bool × T)
  qb : List (Bool × T)
  outT : List T
  outF : List T
  evals : List T
deriving DecidableEq, Repr

/-- Drain the buffered pairs of tee iterator `a` looking for the next pair
whose cached predicate value is true. -/
def scanQT {T : Type} : List (Bool × T) → Option (T × List (Bool × T))
  | [] => none
  | (pv, i) :: rest => if pv then some (i, rest) else scanQT rest

/-- Drain the buffered pairs of tee iterator `b` looking for the next pair
whose cached predicate value is false. -/
def scanQF {T : Type} : List (Bool × T) → Option (T × List (Bool × T))
  | [] => none
  | (pv, i) :: rest => if pv then scanQF rest else some (i, rest)

/-- Pull the shared base generator `(condition(i), i) for i in sequence)` on
behalf of the true view until a pair with true predicate value arrives or the
source is exhausted; every produced pair is buffered for the other side, and
every predicate application is logged. -/
def scanSrcT {T : Type} (P : T → Bool) :
    List T → List (Bool × T) → List T → Pulled T × List T × List (Bool × T) × List T
  | [], qb, evals => (.stop, [], qb, evals)
  | y :: rest, qb, evals =>
      if P y then (.item y, rest, qb ++ [(P y, y)], evals ++ [y])
      else scanSrcT P rest (qb ++ [(P y, y)]) (evals ++ [y])

/-- Pull the shared base generator on behalf of the false view. -/
def scanSrcF {T : Type} (P : T → Bool) :
    List T → List (Bool × T) → List T → Pulled T × List T × List (Bool × T) × List T
  | [], qa, evals => (.stop, [], qa, evals)
  | y :: rest, qa, evals =>
      if P y then scanSrcF P rest (qa ++ [(P y, y)]) (evals ++ [y])
      else (.item y, rest, qa ++ [(P y, y)], evals ++ [y])

/-- One call of `next` on the true view returned by `partition`. -/
def partitionNextT {T : Type} (P : T → Bool) (st : PartState T) :
    Pulled T × PartState T :=
  match scanQT st.qa with
  | some (x, qa') => (.item x, { st with qa := qa', outT := st.outT ++ [x] })
  | none =>
      match scanSrcT P st.src st.qb st.evals with
      | (.item x, src', qb', ev') =>
          (.item x, { st with qa := [], src := src', qb := qb', evals := ev',
                              outT := st.outT ++ [x] })
      | (r, src', qb', ev') =>
          (r, { st with qa := [], src := src', qb := qb', evals := ev' })

/-- One call of `next` on the false view returned by `partition`. -/
def partitionNextF {T : Type} (P : T → Bool) (st : PartState T) :
    Pulled T × PartState T :=
  match scanQF st.qb with
  | some (x, qb') => (.item x, { st with qb := qb', outF := st.outF ++ [x] })
  | none =>
      match scanSrcF P st.src st.qa st.evals with
      | (.item x, src', qa', ev') =>
          (.item x, { st with qb := [], src := src', qa := qa', evals := ev',
                              outF := st.outF ++ [x] })
      | (r, src', qa', ev') =>
          (r, { st with qb := [], src := src', qa := qa', evals := ev' })

/-- A consumer action on a partition pair: pull the true or the false view. -/
inductive PAct where
  | pullT
  | pullF
deriving DecidableEq, Repr

def partitionStep {T : Type} (P : T → Bool) (a : PAct) (st : PartState T) :
    PartState T :=
  match a with
  | .pullT => (partitionNextT P st).2
  | .pullF => (partitionNextF P st).2

/-- Run an arbitrary interleaving of consumer pulls on the two views. -/
def partitionRun {T : Type} (P : T → Bool) : List PAct → PartState T → PartState T
  | [], st => st
  | a :: rest, st => partitionRun P rest (partitionStep P a st)

/-- The state produced by calling `partition(condition, sequence)` itself:
`tee` and the two generator expressions are all lazy, so the whole source is
still pending and nothing has been buffered, produced or evaluated. -/
def partitionInit {T : Type} (S : List T) : PartState T :=
  ⟨S, [], [], [], [], []⟩

/-! ## chunks -/

/-- The lazy iterator returned by `chunks` after its precondition check:
`zip_longest` over `n` copies of one shared iterator, which has consumed
nothing yet. -/
structure ChunksState (T : Type) where
  src : List T
  n : Nat
  fillvalue : T
deriving DecidableEq, Repr

/-- `chunks(sequence, n, fillvalue)`: the assertion `n >= 1` fires at call
time; on success a lazy `zip_longest` iterator is returned with the source
untouched. -/
def chunks {T : Type} (src : List T) (n : Int) (fillvalue : T) :
    Except String (ChunksState T) :=
  if 1 ≤ n then .ok ⟨src, n.toNat, fillvalue⟩
  else .error "chunk size is not positive"

/-- Produce the next chunk: `zip_longest` pulls `n` items from the shared
iterator, padding with the fill value once the source runs out, and stops
when the source is exhausted at the start of a chunk. -/
def chunksNext {T : Type} (st : ChunksState T) : Option (List T × ChunksState T) :=
  match st.src with
  | [] => none
  | _ =>
      some (st.src.take st.n ++ List.replicate (st.n - st.src.length) st.fillvalue,
            { st with src := st.src.drop st.n })

/-! ## groupby

`groupby(sequence, key)` shares one generator
`kvs = ((key(item), item) for item in sequence)` between the outer generator
and every group generator `subseq(buffers[k])`.  `bufs` is the
insertion-ordered `defaultdict(deque)` of per-key buffers, `seen` the set of
keys already yielded as fresh groups (kept as a list; only membership is
used).  The embedding follows the generator semantics the module was written
for (its doctests require it): a StopIteration escaping `next(kvs)` inside
`subseq` terminates that group generator. -/

/-- Program counter of the outer groupby generator: in its main loop, inside
the final pass over the remaining buffer keys, or finished. -/
inductive GOuterPC (K : Type) where
  | loopTop
  | finalPass (rem : List K)
  | done
deriving DecidableEq, Repr

/-- What an outer groupby pull hands to the consumer alongside the key: a
fresh `subseq(buffers[k])` generator, or (during the final pass) the raw
buffer deque itself, whose contents are fixed from then on. -/
inductive GHandle (K T : Type) where
  | sub (k : K)
  | raw (k : K) (contents : List T)
deriving DecidableEq, Repr

/-- Log entry for one consumer pull on a groupby family of generators. -/
inductive GOut (K T : Type) where
  | outer (r : Pulled (K × GHandle K T))
  | group (k : K) (r : Pulled T)
deriving DecidableEq, Repr

structure GState (K T : Type) where
  src : List T
  bufs : List (K × List T)
  seen : List K
  pc : GOuterPC K
  outs : List (GOut K T)
deriving DecidableEq, Repr

/-- Result of running the source-consuming loop of one groupby generator. -/
structure GRes (K T : Type) where
  r : Pulled (K × GHandle K T)
  src : List T
  bufs : List (K × List T)
  seen : List K
  pc : GOuterPC K
deriving DecidableEq, Repr

/-- The final pass of the outer generator: scan the remaining buffer keys for
one whose buffer is non-empty and whose key was never yielded, and yield the
raw buffer. -/
def scanFinal {K T : Type} [DecidableEq K] (bufs : List (K × List T)) (seen : List K) :
    List K → Pulled (K × GHandle K T) × GOuterPC K
  | [] => (.stop, .done)
  | bk :: rest =>
      if (bufGet bufs bk).isEmpty = false ∧ bk ∉ seen then
        (.item (bk, .raw bk (bufGet bufs bk)), .finalPass rest)
      else scanFinal bufs seen rest

/-- The main loop of the outer groupby generator: pull `kvs`, append the item
to its key's buffer, and yield a fresh `(key, subseq)` pair when the key is
new; on exhaustion of `kvs`, start the final pass over the buffer keys. -/
def gOuterGo {K T : Type} [DecidableEq K] (key : T → K) :
    List T → List (K × List T) → List K → GRes K T
  | [], bufs, seen =>
      let (r, pc) := scanFinal bufs seen (bufs.map Prod.fst)
      ⟨r, [], bufs, seen, pc⟩
  | x :: rest, bufs, seen =>
      let k := key x
      let bufs' := bufApp bufs k x
      if k ∈ seen then gOuterGo key rest bufs' seen
      else ⟨.item (k, .sub k), rest, bufs', seen ++ [k], .loopTop⟩

/-- One call of `next` on the outer generator returned by `groupby`. -/
def groupbyNext {K T : Type} [DecidableEq K] (key : T → K) (st : GState K T) :
    Pulled (K × GHandle K T) × GState K T :=
  match st.pc with
  | .done => (.stop, st)
  | .finalPass rem =>
      let (r, pc') := scanFinal st.bufs st.seen rem
      (r, { st with pc := pc' })
  | .loopTop =>
      let res := gOuterGo key st.src st.bufs st.seen
      (res.r, { st with src := res.src, bufs := res.bufs, seen := res.seen, pc := res.pc })

/-- Result of running the source-consuming loop of `subseq`. -/
structure SubRes (K T : Type) where
  r : Pulled T
  src : List T
  bufs : List (K × List T)
deriving DecidableEq, Repr

/-- The loop of `subseq(buffers[k])`: yield the front of the buffer if it is
non-empty, otherwise pull `kvs`, routing the pulled item into its own key's
buffer, until the buffer for `k` fills or the source is exhausted (the
StopIteration of `next(kvs)` then ends the group generator). -/
def subGo {K T : Type} [DecidableEq K] (key : T → K) (k : K) :
    List T → List (K × List T) → SubRes K T
  | [], bufs =>
      match bufGet bufs k with
      | y :: t => ⟨.item y, [], upsert bufs k t⟩
      | [] => ⟨.stop, [], bufs⟩
  | x :: rest, bufs =>
      match bufGet bufs k with
      | y :: t => ⟨.item y, x :: rest, upsert bufs k t⟩
      | [] => subGo key k rest (bufApp bufs (key x) x)

/-- One call of `next` on the group generator for key `k`; such a generator
exists exactly for the keys yielded by the main loop (the members of
`seen`), and pulling anything else is a no-op. -/
def subseqNext {K T : Type} [DecidableEq K] (key : T → K) (k : K) (st : GState K T) :
    Pulled T × GState K T :=
  if k ∈ st.seen then
    let res := subGo key k st.src st.bufs
    (res.r, { st with src := res.src, bufs := res.bufs })
  else (.stop, st)

/-- A consumer action on a groupby family: pull the outer generator, or pull
the group generator of key `k`. -/
inductive GAct (K : Type) where
  | outer
  | group (k : K)
deriving DecidableEq, Repr

def groupbyStep {K T : Type} [DecidableEq K] (key : T → K) (a : GAct K)
    (st : GState K T) : GState K T :=
  match a with
  | .outer =>
      let (r, st') := groupbyNext key st
      { st' with outs := .outer r :: st'.outs }
  | .group k =>
      let (r, st') := subseqNext key k st
      { st' with outs := .group k r :: st'.outs }

/-- Run an arbitrary interleaving of consumer pulls on a groupby family. -/
def groupbyRun {K T : Type} [DecidableEq K] (key : T → K) :
    List (GAct K) → GState K T → GState K T
  | [], st => st
  | a :: rest, st => groupbyRun key rest (groupbyStep key a st)

/-- The state produced by calling `groupby(sequence, key)` itself: the
generator expression `kvs`, the buffer dict and the seen set are created
lazily or empty, and no source item has been consumed. -/
def groupbyInit {K T : Type} (S : List T) : GState K T :=
  ⟨S, [], [], .loopTop, []⟩

/-! ## split

`split(delimiter, sequence)` shares one source iterator between the outer
generator and every segment generator `subgen(id)`.  `active` is the
insertion-ordered `OrderedDict` mapping still-open segment ids to their
buffers; here it is split into the ordered id list `active` and the
persistent buffer table `bufs` (a `subgen` keeps using its deque object even
after its id is popped from `active`, so buffers are never deleted).
`nextId` is the outer generator's `id` counter and `segs` holds the control
state of every created `subgen` generator.  `events` logs, for every item
pulled from the shared source by any generator, the active set at that
moment and how the item was dispatched. -/

/-- How a source item pulled by `split` machinery was dispatched. -/
inductive SOutcome where
  | routed (dest : Nat)
  | newSeg (id : Nat)
  | delimPop
  | direct
deriving DecidableEq, Repr

/-- Log entry for one item pulled from the shared source: the item, whether
the delimiter predicate held, the active set (in creation order) at the
moment of the pull, and the dispatch outcome. -/
structure SplitEv (T : Type) where
  x : T
  isDelim : Bool
  act : List Nat
  out : SOutcome
deriving DecidableEq, Repr

/-- Control state of a `subgen(id)` generator: not yet started (its first
pull still has to execute `buffered = active[id]`), suspended with `n`
pending iterations of its buffer-draining for loop (`running 0` is the top
of the while loop), or finished. -/
inductive SegPC where
  | notStarted
  | running (n : Nat)
  | dead
deriving DecidableEq, Repr

/-- Control state of the outer split generator. -/
inductive OuterPC where
  | loopTop
  | lastYield
  | done
deriving DecidableEq, Repr

/-- Shared bookkeeping of one `split` call. -/
structure SCore (T : Type) where
  bufs : List (Nat × List T)
  active : List Nat
  nextId : Nat
  segs : List (Nat × SegPC)
  events : List (SplitEv T)
deriving DecidableEq, Repr

/-- Log entry for one consumer pull on a split family of generators. -/
inductive SOut (T : Type) where
  | outer (r : Pulled Nat)
  | seg (i : Nat) (r : Pulled T)
deriving DecidableEq, Repr

structure SplitState (T : Type) where
  src : List T
  core : SCore T
  outerPC : OuterPC
  outs : List (SOut T)
deriving DecidableEq, Repr

/-- Result of running the source-consuming loop of the outer generator. -/
structure OuterRes (T : Type) where
  r : Pulled Nat
  src : List T
  core : SCore T
  pc : OuterPC
deriving DecidableEq, Repr

/-- The main loop of the outer split generator.  A delimiter pops the oldest
open segment (if any) and opens and yields a fresh one; a non-delimiter item
is appended to the first (oldest) buffer when a segment is open — the loop
then continues without yielding — and otherwise opens and yields a fresh
segment seeded with the item.  On exhaustion, if no segment id was ever
allocated, one empty segment is registered and yielded before finishing. -/
def outerGo {T : Type} (δ : T → Bool) : List T → SCore T → OuterRes T
  | [], c =>
      if c.nextId = 0 then
        { r := .item 1, src := [],
          core := { c with
            bufs := upsert c.bufs 1 [],
            active := if 1 ∈ c.active then c.active else c.active ++ [1],
            segs := upsert c.segs 1 .notStarted },
          pc := .lastYield }
      else { r := .stop, src := [], core := c, pc := .done }
  | x :: rest, c =>
      if δ x then
        let nid := c.nextId + 1
        { r := .item nid, src := rest,
          core := { bufs := upsert c.bufs nid [],
                    active := c.active.tail ++ [nid],
                    nextId := nid,
                    segs := upsert c.segs nid .notStarted,
                    events := ⟨x, true, c.active, .delimPop⟩ :: c.events },
          pc := .loopTop }
      else
        match c.active with
        | d :: _ =>
            outerGo δ rest
              { c with bufs := bufApp c.bufs d x,
                       events := ⟨x, false, c.active, .routed d⟩ :: c.events }
        | [] =>
            let nid := c.nextId + 1
            { r := .item nid, src := rest,
              core := { bufs := upsert c.bufs nid [x],
                        active := [nid],
                        nextId := nid,
                        segs := upsert c.segs nid .notStarted,
                        events := ⟨x, false, [], .newSeg nid⟩ :: c.events },
              pc := .loopTop }

/-- One call of `next` on the outer generator returned by `split`. -/
def splitNext {T : Type} (δ : T → Bool) (st : SplitState T) :
    Pulled Nat × SplitState T :=
  match st.outerPC with
  | .done => (.stop, st)
  | .lastYield => (.stop, { st with outerPC := .done })
  | .loopTop =>
      let res := outerGo δ st.src st.core
      (res.r, { st with src := res.src, core := res.core, outerPC := res.pc })

/-- Result of running the while loop of a `subgen`. -/
structure SegRes (T : Type) where
  r : Pulled T
  src : List T
  core : SCore T
  pc : SegPC
deriving DecidableEq, Repr

/-- The while loop of `subgen(i)`, entered at its top: yield from the own
buffer if non-empty (starting a for loop over its current length), finish if
the segment is no longer registered active, and otherwise pull the shared
source, popping the oldest active segment on a delimiter and appending a
non-delimiter item to the first (oldest) buffer; the branch yielding the item
directly exists in the code for an empty active set only. -/
def segGo {T : Type} (δ : T → Bool) (i : Nat) : List T → SCore T → SegRes T
  | [], c =>
      match bufGet c.bufs i with
      | y :: t =>
          ⟨.item y, [], { c with bufs := upsert c.bufs i t }, .running t.length⟩
      | [] =>
          if i ∈ c.active then
            ⟨.stop, [], { c with active := c.active.erase i }, .dead⟩
          else ⟨.stop, [], c, .dead⟩
  | x :: rest, c =>
      match bufGet c.bufs i with
      | y :: t =>
          ⟨.item y, x :: rest, { c with bufs := upsert c.bufs i t }, .running t.length⟩
      | [] =>
          if i ∈ c.active then
            if δ x then
              segGo δ i rest
                { c with active := c.active.tail,
                         events := ⟨x, true, c.active, .delimPop⟩ :: c.events }
            else
              match c.active with
              | d :: _ =>
                  segGo δ i rest
                    { c with bufs := bufApp c.bufs d x,
                             events := ⟨x, false, c.active, .routed d⟩ :: c.events }
              | [] =>
                  ⟨.item x, rest,
                    { c with events := ⟨x, false, [], .direct⟩ :: c.events },
                    .running 0⟩
          else ⟨.stop, x :: rest, c, .dead⟩

/-- Enter the while loop of `subgen(i)` and record its new control state. -/
def segStep {T : Type} (δ : T → Bool) (i : Nat) (st : SplitState T) :
    Pulled T × SplitState T :=
  let res := segGo δ i st.src st.core
  (res.r, { st with src := res.src,
                    core := { res.core with segs := upsert res.core.segs i res.pc } })

/-- One call of `next` on the segment generator `subgen(i)`.  A first pull on
a segment whose id was already popped from the active set raises KeyError at
`buffered = active[id]`; a pull inside the buffer-draining for loop pops one
buffered item without consulting the source. -/
def subgenNext {T : Type} (δ : T → Bool) (i : Nat) (st : SplitState T) :
    Pulled T × SplitState T :=
  match aget st.core.segs i with
  | none => (.stop, st)
  | some .dead => (.stop, st)
  | some .notStarted =>
      if i ∈ st.core.active then segStep δ i st
      else (.err, { st with core := { st.core with segs := upsert st.core.segs i .dead } })
  | some (.running n) =>
      match n with
      | 0 => segStep δ i st
      | m + 1 =>
          match bufGet st.core.bufs i with
          | [] => (.err, { st with core := { st.core with segs := upsert st.core.segs i .dead } })
          | y :: t =>
              (.item y,
               { st with core := { st.core with
                   bufs := upsert st.core.bufs i t,
                   segs := upsert st.core.segs i (.running m) } })

/-- A consumer action on a split family: pull the outer generator or pull a
segment generator. -/
inductive SAct where
  | outer
  | seg (i : Nat)
deriving DecidableEq, Repr

def splitStep {T : Type} (δ : T → Bool) (a : SAct) (st : SplitState T) :
    SplitState T :=
  match a with
  | .outer =>
      let (r, st') := splitNext δ st
      { st' with outs := .outer r :: st'.outs }
  | .seg i =>
      let (r, st') := subgenNext δ i st
      { st' with outs := .seg i r :: st'.outs }

/-- Run an arbitrary interleaving of consumer pulls on a split family. -/
def splitRun {T : Type} (δ : T → Bool) : List SAct → SplitState T → SplitState T
  | [], st => st
  | a :: rest, st => splitRun δ rest (splitStep δ a st)

/-- The state produced by calling `split(delimiter, sequence)` itself: the
outer generator is suspended before its first pull and no source item has
been consumed. -/
def splitInit {T : Type} (S : List T) : SplitState T :=
  ⟨S, ⟨[], [], 0, [], []⟩, .loopTop, []⟩

/-! ## Sequential consumers

The consumption orders used by the repository's tests:
`list(map(''.join, split(d, s)))` pulls the outer generator and fully drains
each segment before pulling the outer generator again, and the groupby tests
either pull only keys or fully drain each group upon receipt.  The drivers
take explicit fuel; every claim below instantiates them on concrete inputs
with ample fuel. -/

/-- Fully drain segment `i`, as `''.join(segment)` does. -/
def drainSeg {T : Type} (δ : T → Bool) (i : Nat) :
    Nat → SplitState T → List T × SplitState T
  | 0, st => ([], st)
  | fuel + 1, st =>
      match subgenNext δ i st with
      | (.item x, st') =>
          let (xs, st'') := drainSeg δ i fuel st'
          (x :: xs, st'')
      | (_, st') => ([], st')

/-- `list(map(join, split(d, s)))`: alternately pull the outer generator and
fully drain the segment it yielded. -/
def splitSeqDriver {T : Type} (δ : T → Bool) :
    Nat → SplitState T → List (List T)
  | 0, _ => []
  | fuel + 1, st =>
      match splitNext δ st with
      | (.item i, st') =>
          let (xs, st'') := drainSeg δ i (fuel + 1) st'
          xs :: splitSeqDriver δ fuel st''
      | (_, _) => []

/-- Modelled from the spec: the reference semantics of Python's
`s.split(d)` for a single-character delimiter, to which the spec's splitting
law compares `split` — pieces between delimiter occurrences, an empty
input giving one empty piece and consecutive delimiters giving empty
pieces. -/
def pySplit {T : Type} (δ : T → Bool) : List T → List (List T)
  | [] => [[]]
  | x :: rest =>
      match pySplit δ rest with
      | [] => [[]]
      | seg :: segs => if δ x then [] :: seg :: segs else (x :: seg) :: segs

/-- Fully drain the group generator of key `k`, as `tuple(group)` does. -/
def drainGroup {K T : Type} [DecidableEq K] (key : T → K) (k : K) :
    Nat → GState K T → List T × GState K T
  | 0, st => ([], st)
  | fuel + 1, st =>
      match subseqNext key k st with
      | (.item x, st') =>
          let (xs, st'') := drainGroup key k fuel st'
          (x :: xs, st'')
      | (_, st') => ([], st')

/-- `tuple(key for key, group in groupby(data))`: pull the outer generator
only, never touching any group. -/
def groupbyKeysDriver {K T : Type} [DecidableEq K] (key : T → K) :
    Nat → GState K T → List K
  | 0, _ => []
  | fuel + 1, st =>
      match groupbyNext key st with
      | (.item (k, _), st') => k :: groupbyKeysDriver key fuel st'
      | (_, _) => []

/-- `tuple(tuple(group) for key, group in groupby(data))`: pull the outer
generator and fully consume each received group before the next outer
pull (a raw buffer yielded by the final pass is iterated without popping,
so its contents are read off directly). -/
def groupbyValuesDriver {K T : Type} [DecidableEq K] (key : T → K) :
    Nat → GState K T → List (K × List T)
  | 0, _ => []
  | fuel + 1, st =>
      match groupbyNext key st with
      | (.item (k, .sub _), st') =>
          let (xs, st'') := drainGroup key k (fuel + 1) st'
          (k, xs) :: groupbyValuesDriver key fuel st''
      | (.item (k, .raw _ contents), st') =>
          (k, contents) :: groupbyValuesDriver key fuel st'
      | (_, _) => []

/-! ## Source-extension helpers

Appending further source items behind the not-yet-consumed part of a state
leaves everything else in place; the laziness claims are phrased with these
helpers: a consumption pattern that never observed the end of the source
behaves identically however much more source there is. -/

def partitionExt {T : Type} (ext : List T) (st : PartState T) : PartState T :=
  { st with src := st.src ++ ext }

def groupbyExt {K T : Type} (ext : List T) (st : GState K T) : GState K T :=
  { st with src := st.src ++ ext }

def splitExt {T : Type} (ext : List T) (st : SplitState T) : SplitState T :=
  { st with src := st.src ++ ext }

/-! ## Split dispatch invariant -/

/-- A well-dispatched source-pull event: a non-delimiter item that arrived
while the active set was non-empty was appended to the buffer of the first
entry of the creation-ordered active set, which is its oldest (least) id —
never to a newer segment. -/
def GoodEv {T : Type} (e : SplitEv T) : Prop :=
  e.isDelim = false → e.act ≠ [] →
    ∃ d, e.out = .routed d ∧ d ∈ e.act ∧ ∀ j ∈ e.act, d ≤ j

/-- Invariant of reachable split states: the active list is strictly
increasing (segments appear in creation order, so its head is the oldest
open segment), active ids are positive and bounded by the id counter while
the outer loop may still allocate, and every logged source pull so far was
well dispatched. -/
def SInv {T : Type} (st : SplitState T) : Prop :=
  st.core.active.Pairwise (· < ·) ∧
  (st.outerPC = .loopTop → ∀ j ∈ st.core.active, j ≤ st.core.nextId) ∧
  (∀ j ∈ st.core.active, 1 ≤ j) ∧
  (∀ e ∈ st.core.events, GoodEv e)

/-! ## Pending output of a partition state -/

/-- The item a pending tee pair contributes to the true view, if any. -/
def tpick {T : Type} : Bool × T → Option T :=
  fun p => if p.1 then some p.2 else none

/-- The item a pending tee pair contributes to the false view, if any. -/
def fpick {T : Type} : Bool × T → Option T :=
  fun p => if p.1 then none else some p.2

/-- Everything the true view can still produce from a state. -/
def remT {T : Type} (P : T → Bool) (st : PartState T) : List T :=
  st.qa.filterMap tpick ++ st.src.filter P

/-- Everything the false view can still produce from a state. -/
def remF {T : Type} (P : T → Bool) (st : PartState T) : List T :=
  st.qb.filterMap fpick ++ st.src.filter (fun y => !(P y))

/-- Invariant tying a reachable partition state to the original source: each
view's past output followed by its pending output is the corresponding
filtering of the source, and the items evaluated so far are exactly the
consumed prefix of the source, in order. -/
def PartInv {T : Type} (P : T → Bool) (S : List T) (st : PartState T) : Prop :=
  st.outT ++ remT P st = S.filter P ∧
  st.outF ++ remF P st = S.filter (fun y => !(P y)) ∧
  st.evals ++ st.src = S

/-! ## Concrete claims -/

/-- Claim C4: groupby on [1,2,3,4,5,1,2,3,4,5] with the identity key yields
the keys 1,2,3,4,5 in first-occurrence order, and fully draining each key's
group terminates and yields both occurrences of that key, even though the
two occurrences are non-adjacent in the source. -/
theorem groupby_nonadjacent_duplicates :
    groupbyKeysDriver (K := Nat) (fun x => x) 25 (groupbyInit [1, 2, 3, 4, 5, 1, 2, 3, 4, 5]) =
      [1, 2, 3, 4, 5] ∧
    groupbyValuesDriver (K := Nat) (fun x => x) 25 (groupbyInit [1, 2, 3, 4, 5, 1, 2, 3, 4, 5]) =
      [(1, [1, 1]), (2, [2, 2]), (3, [3, 3]), (4, [4, 4]), (5, [5, 5])] :=
  ⟨rfl, rfl⟩

/-- Claim C6: splitting an empty source: the first outer pull yields one
segment (id 1), every further outer pull reports exhaustion, and draining
that segment yields no items at all. -/
theorem split_empty_source {T : Type} (δ : T → Bool) :
    (splitNext δ (splitInit ([] : List T))).1 = .item 1 ∧
    (splitNext δ (splitNext δ (splitInit ([] : List T))).2).1 = .stop ∧
    (subgenNext δ 1 (splitNext δ (splitInit ([] : List T))).2).1 = .stop ∧
    (subgenNext δ 1 (subgenNext δ 1 (splitNext δ (splitInit ([] : List T))).2).2).1 = .stop ∧
    (splitNext δ (subgenNext δ 1 (splitNext δ (splitInit ([] : List T))).2).2).1 = .stop :=
  ⟨rfl, rfl, rfl, rfl, rfl⟩

/-- Claim C1 (failing input): on the one-character string "a" with delimiter
'a', consuming split segment by segment (exactly as
`list(map(''.join, split('a', s)))` does) yields a single empty segment,
while Python's `"a".split("a")` — the behaviour the spec's splitting law and
the repository's own hypothesis test require — yields two empty pieces. -/
theorem split_text_law_failing_input :
    splitSeqDriver (· == 'a') 10 (splitInit ['a']) = [[]] ∧
    pySplit (· == 'a') ['a'] = [[], []] ∧
    ([[]] : List (List Char)) ≠ [[], []] :=
  ⟨rfl, rfl, by decide⟩

/-- Claim C2 (failing input): for the one-element source [0] with delimiter
value 0, split emits a single empty segment, so re-joining the segments with
one inferred delimiter between consecutive pairs rebuilds the empty list,
not the original source. -/
theorem split_reconstruction_failing_input :
    splitSeqDriver (· == 0) 10 (splitInit [0]) = [[]] ∧
    List.intercalate [0] (splitSeqDriver (· == 0) 10 (splitInit [0])) = ([] : List Nat) ∧
    ([] : List Nat) ≠ [0] :=
  ⟨rfl, rfl, by decide⟩

/-- Claim C8: calling chunks with a size below 1 fails at call time, before
the source is touched and before any chunk is requested; any size of at
least 1 succeeds and returns the lazy iterator with the source fully
unconsumed. -/
theorem chunks_call_time_guard {T : Type} (src : List T) (n : Int) (fill : T) :
    (n < 1 → chunks src n fill = .error "chunk size is not positive") ∧
    (1 ≤ n → chunks src n fill = .ok ⟨src, n.toNat, fill⟩) := by
  constructor
  · intro h
    simp [chunks, not_le.mpr h]
  · intro h
    simp [chunks, h]

/-- Witness for the chunks guard at size 0 (rejected) and size 2
(accepted, source intact). -/
theorem chunks_call_time_guard_witness :
    chunks [5] (0 : Int) 0 = .error "chunk size is not positive" ∧
    chunks [5] (2 : Int) 0 = .ok ⟨[5], 2, 0⟩ :=
  ⟨(chunks_call_time_guard [5] 0 0).1 (by decide),
   (chunks_call_time_guard [5] 2 0).2 (by decide)⟩

/-! ## Partition: interleaving-independence and single evaluation -/

theorem scanQT_some {T : Type} {qa qa' : List (Bool × T)} {x : T}
    (h : scanQT qa = some (x, qa')) :
    qa.filterMap tpick = x :: qa'.filterMap tpick := by
  induction qa with
  | nil => simp [scanQT] at h
  | cons p rest ih =>
    obtain ⟨pv, i⟩ := p
    by_cases hpv : pv
    · simp [scanQT, hpv] at h
      obtain ⟨rfl, rfl⟩ := h
      simp [tpick, hpv]
    · simp [scanQT, hpv] at h
      simp [tpick, hpv, ih h]

theorem scanQT_none {T : Type} {qa : List (Bool × T)} (h : scanQT qa = none) :
    qa.filterMap tpick = [] := by
  induction qa with
  | nil => simp
  | cons p rest ih =>
    obtain ⟨pv, i⟩ := p
    by_cases hpv : pv
    · simp [scanQT, hpv] at h
    · simp [scanQT, hpv] at h
      simp [tpick, hpv, ih h]

theorem scanQF_some {T : Type} {qb qb' : List (Bool × T)} {x : T}
    (h : scanQF qb = some (x, qb')) :
    qb.filterMap fpick = x :: qb'.filterMap fpick := by
  induction qb with
  | nil => simp [scanQF] at h
  | cons p rest ih =>
    obtain ⟨pv, i⟩ := p
    by_cases hpv : pv
    · simp [scanQF, hpv] at h
      simp [fpick, hpv, ih h]
    · simp [scanQF, hpv] at h
      obtain ⟨rfl, rfl⟩ := h
      simp [fpick, hpv]

theorem scanQF_none {T : Type} {qb : List (Bool × T)} (h : scanQF qb = none) :
    qb.filterMap fpick = [] := by
  induction qb with
  | nil => simp
  | cons p rest ih =>
    obtain ⟨pv, i⟩ := p
    by_cases hpv : pv
    · simp [scanQF, hpv] at h
      simp [fpick, hpv, ih h]
    · simp [scanQF, hpv] at h

theorem scanSrcT_spec {T : Type} (P : T → Bool) :
    ∀ (src : List T) (qb : List (Bool × T)) (ev : List T)
      {r : Pulled T} {src' : List T} {qb' : List (Bool × T)} {ev' : List T},
      scanSrcT P src qb ev = (r, src', qb', ev') →
      (∀ x, r = .item x → src.filter P = x :: src'.filter P) ∧
      (r = .stop → src.filter P = [] ∧ src' = []) ∧
      (qb'.filterMap fpick ++ src'.filter (fun y => !(P y)) =
        qb.filterMap fpick ++ src.filter (fun y => !(P y))) ∧
      (ev' ++ src' = ev ++ src) ∧ r ≠ .err := by
  intro src
  induction src with
  | nil =>
    intro qb ev r src' qb' ev' h
    simp [scanSrcT] at h
    obtain ⟨rfl, rfl, rfl, rfl⟩ := h
    simp
  | cons y rest ih =>
    intro qb ev r src' qb' ev' h
    by_cases hy : P y
    · simp [scanSrcT, hy] at h
      obtain ⟨rfl, rfl, rfl, rfl⟩ := h
      refine ⟨?_, by simp, ?_, by simp, by simp⟩
      · intro x hx
        cases hx
        simp [List.filter_cons, hy]
      · simp [List.filterMap_append, List.filter_cons, fpick, hy]
    · simp only [scanSrcT, hy, if_false, Bool.false_eq_true] at h
      have spec := ih (qb ++ [(false, y)]) (ev ++ [y]) h
      refine ⟨?_, ?_, ?_, ?_, spec.2.2.2.2⟩
      · intro x hx
        simpa [List.filter_cons, hy] using spec.1 x hx
      · intro hstop
        have := spec.2.1 hstop
        simpa [List.filter_cons, hy] using this
      · rw [spec.2.2.1]
        simp [List.filterMap_append, List.filter_cons, fpick, hy]
      · rw [spec.2.2.2.1]
        simp


theorem scanSrcF_spec {T : Type} (P : T → Bool) :
    ∀ (src : List T) (qa : List (Bool × T)) (ev : List T)
      {r : Pulled T} {src' : List T} {qa' : List (Bool × T)} {ev' : List T},
      scanSrcF P src qa ev = (r, src', qa', ev') →
      (∀ x, r = .item x → src.filter (fun y => !(P y)) = x :: src'.filter (fun y => !(P y))) ∧
      (r = .stop → src.filter (fun y => !(P y)) = [] ∧ src' = []) ∧
      (qa'.filterMap tpick ++ src'.filter P = qa.filterMap tpick ++ src.filter P) ∧
      (ev' ++ src' = ev ++ src) ∧ r ≠ .err := by
  intro src
  induction src with
  | nil =>
    intro qa ev r src' qa' ev' h
    simp [scanSrcF] at h
    obtain ⟨rfl, rfl, rfl, rfl⟩ := h
    simp
  | cons y rest ih =>
    intro qa ev r src' qa' ev' h
    by_cases hy : P y
    · simp only [scanSrcF, hy, if_true] at h
      have spec := ih (qa ++ [(true, y)]) (ev ++ [y]) h
      refine ⟨?_, ?_, ?_, ?_, spec.2.2.2.2⟩
      · intro x hx
        simpa [List.filter_cons, hy] using spec.1 x hx
      · intro hstop
        have := spec.2.1 hstop
        simpa [List.filter_cons, hy] using this
      · rw [spec.2.2.1]
        simp [List.filterMap_append, List.filter_cons, tpick, hy]
      · rw [spec.2.2.2.1]
        simp
    · simp [scanSrcF, hy] at h
      obtain ⟨rfl, rfl, rfl, rfl⟩ := h
      refine ⟨?_, by simp, ?_, by simp, by simp⟩
      · intro x hx
        cases hx
        simp [List.filter_cons, hy]
      · simp [List.filterMap_append, List.filter_cons, tpick, hy]

theorem partitionNextT_inv {T : Type} {P : T → Bool} {S : List T} {st : PartState T}
    (hinv : PartInv P S st) : PartInv P S (partitionNextT P st).2 := by
  obtain ⟨hT, hF, hE⟩ := hinv
  match hq : scanQT st.qa with
  | some (x, qa') =>
    simp only [partitionNextT, hq]
    refine ⟨?_, hF, hE⟩
    rw [remT] at hT ⊢
    simp only at *
    rw [scanQT_some hq] at hT
    simpa using hT
  | none =>
    match hs : scanSrcT P st.src st.qb st.evals with
    | (r, src', qb', ev') =>
      have spec := scanSrcT_spec P st.src st.qb st.evals hs
      have hqa := scanQT_none hq
      match r with
      | .item x =>
        simp only [partitionNextT, hq, hs]
        refine ⟨?_, ?_, ?_⟩
        · rw [remT] at hT ⊢
          dsimp only at *
          rw [hqa] at hT
          rw [spec.1 x rfl] at hT
          simpa using hT
        · rw [remF] at hF ⊢
          dsimp only at *
          rw [spec.2.2.1]
          exact hF
        · dsimp only
          rw [spec.2.2.2.1]
          exact hE
      | .stop =>
        simp only [partitionNextT, hq, hs]
        refine ⟨?_, ?_, ?_⟩
        · rw [remT] at hT ⊢
          dsimp only at *
          rw [hqa] at hT
          obtain ⟨hfil, rfl⟩ := spec.2.1 rfl
          rw [hfil] at hT
          simpa using hT
        · rw [remF] at hF ⊢
          dsimp only at *
          rw [spec.2.2.1]
          exact hF
        · dsimp only
          rw [spec.2.2.2.1]
          exact hE
      | .err => exact absurd rfl spec.2.2.2.2

theorem partitionNextF_inv {T : Type} {P : T → Bool} {S : List T} {st : PartState T}
    (hinv : PartInv P S st) : PartInv P S (partitionNextF P st).2 := by
  obtain ⟨hT, hF, hE⟩ := hinv
  match hq : scanQF st.qb with
  | some (x, qb') =>
    simp only [partitionNextF, hq]
    refine ⟨hT, ?_, hE⟩
    rw [remF] at hF ⊢
    simp only at *
    rw [scanQF_some hq] at hF
    simpa using hF
  | none =>
    match hs : scanSrcF P st.src st.qa st.evals with
    | (r, src', qa', ev') =>
      have spec := scanSrcF_spec P st.src st.qa st.evals hs
      have hqb := scanQF_none hq
      match r with
      | .item x =>
        simp only [partitionNextF, hq, hs]
        refine ⟨?_, ?_, ?_⟩
        · rw [remT] at hT ⊢
          dsimp only at *
          rw [spec.2.2.1]
          exact hT
        · rw [remF] at hF ⊢
          dsimp only at *
          rw [hqb] at hF
          rw [spec.1 x rfl] at hF
          simpa using hF
        · dsimp only
          rw [spec.2.2.2.1]
          exact hE
      | .stop =>
        simp only [partitionNextF, hq, hs]
        refine ⟨?_, ?_, ?_⟩
        · rw [remT] at hT ⊢
          dsimp only at *
          rw [spec.2.2.1]
          exact hT
        · rw [remF] at hF ⊢
          dsimp only at *
          rw [hqb] at hF
          obtain ⟨hfil, rfl⟩ := spec.2.1 rfl
          rw [hfil] at hF
          simpa using hF
        · dsimp only
          rw [spec.2.2.2.1]
          exact hE
      | .err => exact absurd rfl spec.2.2.2.2

theorem partitionRun_inv {T : Type} {P : T → Bool} {S : List T} (sched : List PAct) :
    ∀ {st : PartState T}, PartInv P S st → PartInv P S (partitionRun P sched st) := by
  induction sched with
  | nil => intro st h; exact h
  | cons a rest ih =>
    intro st h
    rw [partitionRun]
    refine ih ?_
    cases a
    · exact partitionNextT_inv h
    · exact partitionNextF_inv h

theorem partitionInit_inv {T : Type} (P : T → Bool) (S : List T) :
    PartInv P S (partitionInit S) := by
  refine ⟨?_, ?_, ?_⟩ <;> simp [partitionInit, remT, remF]

theorem partitionNextT_stop {T : Type} {P : T → Bool} {st : PartState T}
    (h : (partitionNextT P st).1 = .stop) :
    remT P st = [] ∧ (partitionNextT P st).2.src = [] := by
  match hq : scanQT st.qa with
  | some (x, qa') => simp [partitionNextT, hq] at h
  | none =>
    match hs : scanSrcT P st.src st.qb st.evals with
    | (r, src', qb', ev') =>
      have spec := scanSrcT_spec P st.src st.qb st.evals hs
      match r with
      | .item x => simp [partitionNextT, hq, hs] at h
      | .stop =>
        obtain ⟨hfil, rfl⟩ := spec.2.1 rfl
        refine ⟨?_, ?_⟩
        · rw [remT, scanQT_none hq, hfil]
          simp
        · simp [partitionNextT, hq, hs]
      | .err => exact absurd rfl spec.2.2.2.2

theorem partitionNextF_stop {T : Type} {P : T → Bool} {st : PartState T}
    (h : (partitionNextF P st).1 = .stop) :
    remF P st = [] ∧ (partitionNextF P st).2.src = [] := by
  match hq : scanQF st.qb with
  | some (x, qb') => simp [partitionNextF, hq] at h
  | none =>
    match hs : scanSrcF P st.src st.qa st.evals with
    | (r, src', qa', ev') =>
      have spec := scanSrcF_spec P st.src st.qa st.evals hs
      match r with
      | .item x => simp [partitionNextF, hq, hs] at h
      | .stop =>
        obtain ⟨hfil, rfl⟩ := spec.2.1 rfl
        refine ⟨?_, ?_⟩
        · rw [remF, scanQF_none hq, hfil]
          simp
        · simp [partitionNextF, hq, hs]
      | .err => exact absurd rfl spec.2.2.2.2

/-- Claim C3: for every source and predicate and under every interleaving of
consumption between the two partition outputs, the true view, once it
reports exhaustion, has produced exactly the items satisfying the predicate
in original order, and likewise the false view for the rest. -/
theorem partition_interleaving_correct {T : Type} (P : T → Bool) (S : List T)
    (sched : List PAct) :
    ((partitionNextT P (partitionRun P sched (partitionInit S))).1 = .stop →
      (partitionRun P sched (partitionInit S)).outT = S.filter P) ∧
    ((partitionNextF P (partitionRun P sched (partitionInit S))).1 = .stop →
      (partitionRun P sched (partitionInit S)).outF = S.filter (fun y => !(P y))) := by
  have hinv := partitionRun_inv (P := P) (S := S) sched (partitionInit_inv P S)
  constructor
  · intro h
    have hrem := (partitionNextT_stop h).1
    have hout := hinv.1
    rw [remT] at hrem
    rw [remT] at hout
    rw [hrem] at hout
    simpa using hout
  · intro h
    have hrem := (partitionNextF_stop h).1
    have hout := hinv.2.1
    rw [remF] at hrem
    rw [remF] at hout
    rw [hrem] at hout
    simpa using hout

/-- Witness for the partition interleaving law: source [1,2,3,4], evenness
predicate, draining the true view first and then the false view. -/
theorem partition_interleaving_correct_witness :
    (partitionRun (fun x => x % 2 == 0) [.pullT, .pullT, .pullT, .pullF, .pullF, .pullF]
      (partitionInit [1, 2, 3, 4])).outT = [2, 4] ∧
    (partitionRun (fun x => x % 2 == 0) [.pullT, .pullT, .pullT, .pullF, .pullF, .pullF]
      (partitionInit [1, 2, 3, 4])).outF = [1, 3] :=
  ⟨(partition_interleaving_correct (fun x => x % 2 == 0) [1, 2, 3, 4]
      [.pullT, .pullT, .pullT, .pullF, .pullF, .pullF]).1 (by decide),
   (partition_interleaving_correct (fun x => x % 2 == 0) [1, 2, 3, 4]
      [.pullT, .pullT, .pullT, .pullF, .pullF, .pullF]).2 (by decide)⟩

/-- Claim C7: under every interleaving of consumption the predicate has been
applied exactly to the consumed prefix of the source, once per item and in
order (the cached result is reused however far either view advances), and
once either view reports exhaustion every source item has been evaluated
exactly once. -/
theorem partition_predicate_cached {T : Type} (P : T → Bool) (S : List T)
    (sched : List PAct) :
    (partitionRun P sched (partitionInit S)).evals ++
      (partitionRun P sched (partitionInit S)).src = S ∧
    (∀ st', partitionNextT P (partitionRun P sched (partitionInit S)) = (.stop, st') →
      st'.evals = S) ∧
    (∀ st', partitionNextF P (partitionRun P sched (partitionInit S)) = (.stop, st') →
      st'.evals = S) := by
  have hinv := partitionRun_inv (P := P) (S := S) sched (partitionInit_inv P S)
  refine ⟨hinv.2.2, ?_, ?_⟩
  · intro st' h
    have h1 : (partitionNextT P (partitionRun P sched (partitionInit S))).1 = .stop := by
      rw [h]
    have hsrc := (partitionNextT_stop h1).2
    have hinv' := partitionNextT_inv (P := P) (S := S) hinv
    rw [h] at hsrc hinv'
    have hev := hinv'.2.2
    rw [hsrc] at hev
    simpa using hev
  · intro st' h
    have h1 : (partitionNextF P (partitionRun P sched (partitionInit S))).1 = .stop := by
      rw [h]
    have hsrc := (partitionNextF_stop h1).2
    have hinv' := partitionNextF_inv (P := P) (S := S) hinv
    rw [h] at hsrc hinv'
    have hev := hinv'.2.2
    rw [hsrc] at hev
    simpa using hev

/-- Witness for single evaluation: an always-false predicate on [5], pulling
the true view once (which buffers the item for the false view). -/
theorem partition_predicate_cached_witness :
    (partitionRun (fun _ => false) [.pullT] (partitionInit [5])).evals ++
      (partitionRun (fun _ => false) [.pullT] (partitionInit [5])).src = [5] ∧
    (partitionNextT (fun _ => false)
      (partitionRun (fun _ => false) [.pullT] (partitionInit [5]))).2.evals = [5] :=
  ⟨(partition_predicate_cached (fun _ => false) [5] [.pullT]).1,
   (partition_predicate_cached (fun _ => false) [5] [.pullT]).2.1 _ (by decide)⟩

/-! ## Split: the first-buffer rule holds in every reachable state -/

theorem outerGo_inv {T : Type} (δ : T → Bool) :
    ∀ (src : List T) (c : SCore T),
      c.active.Pairwise (· < ·) →
      (∀ j ∈ c.active, j ≤ c.nextId) →
      (∀ j ∈ c.active, 1 ≤ j) →
      (∀ e ∈ c.events, GoodEv e) →
      (outerGo δ src c).core.active.Pairwise (· < ·) ∧
      ((outerGo δ src c).pc = .loopTop →
        ∀ j ∈ (outerGo δ src c).core.active, j ≤ (outerGo δ src c).core.nextId) ∧
      (∀ j ∈ (outerGo δ src c).core.active, 1 ≤ j) ∧
      (∀ e ∈ (outerGo δ src c).core.events, GoodEv e) := by
  intro src
  induction src with
  | nil =>
    rintro ⟨bufs, active, nextId, segs, events⟩ hpw hbd hone hev
    dsimp only at hpw hbd hone hev ⊢
    by_cases h0 : nextId = 0
    · subst h0
      have hact : active = [] := by
        cases hact2 : active with
        | nil => rfl
        | cons a tl =>
          have h1 := hbd a (by rw [hact2]; exact List.mem_cons_self a tl)
          have h2 := hone a (by rw [hact2]; exact List.mem_cons_self a tl)
          omega
      subst hact
      have hred : outerGo δ [] (⟨bufs, [], 0, segs, events⟩ : SCore T) =
          ⟨.item 1, [],
           ⟨upsert bufs 1 [], [1], 0, upsert segs 1 .notStarted, events⟩, .lastYield⟩ := by
        simp [outerGo]
      rw [hred]
      dsimp only
      exact ⟨by simp, fun hpc => OuterPC.noConfusion hpc, by simp, hev⟩
    · have hred : outerGo δ [] (⟨bufs, active, nextId, segs, events⟩ : SCore T) =
          ⟨.stop, [], ⟨bufs, active, nextId, segs, events⟩, .done⟩ := by
        simp [outerGo, h0]
      rw [hred]
      dsimp only
      exact ⟨hpw, fun hpc => OuterPC.noConfusion hpc, hone, hev⟩
  | cons x rest ih =>
    rintro ⟨bufs, active, nextId, segs, events⟩ hpw hbd hone hev
    dsimp only at hpw hbd hone hev ⊢
    by_cases hdel : δ x = true
    · have hred : outerGo δ (x :: rest) (⟨bufs, active, nextId, segs, events⟩ : SCore T) =
          ⟨.item (nextId + 1), rest,
           ⟨upsert bufs (nextId + 1) [], active.tail ++ [nextId + 1], nextId + 1,
            upsert segs (nextId + 1) .notStarted,
            ⟨x, true, active, .delimPop⟩ :: events⟩, .loopTop⟩ := by
        simp [outerGo, hdel]
      rw [hred]
      dsimp only
      refine ⟨?_, ?_, ?_, ?_⟩
      · refine List.pairwise_append.mpr ⟨hpw.sublist (List.tail_sublist _), by simp, ?_⟩
        intro a ha b hb
        simp only [List.mem_singleton] at hb
        subst hb
        have := hbd a (List.mem_of_mem_tail ha)
        omega
      · intro _ j hj
        rcases List.mem_append.mp hj with hj | hj
        · have := hbd j (List.mem_of_mem_tail hj)
          omega
        · simp only [List.mem_singleton] at hj
          omega
      · intro j hj
        rcases List.mem_append.mp hj with hj | hj
        · exact hone j (List.mem_of_mem_tail hj)
        · simp only [List.mem_singleton] at hj
          omega
      · intro e he
        rcases List.mem_cons.mp he with rfl | he
        · intro h1 _
          exact Bool.noConfusion h1
        · exact hev e he
    · cases active with
      | cons d tl =>
        have h2 : ∀ e ∈ (⟨x, false, d :: tl, .routed d⟩ : SplitEv T) :: events, GoodEv e := by
          intro e he
          rcases List.mem_cons.mp he with rfl | he
          · intro _ _
            refine ⟨d, rfl, List.mem_cons_self d tl, ?_⟩
            intro j hj
            rcases List.mem_cons.mp hj with rfl | hj
            · exact Nat.le_refl j
            · exact Nat.le_of_lt ((List.pairwise_cons.mp hpw).1 j hj)
          · exact hev e he
        have hred : outerGo δ (x :: rest) (⟨bufs, d :: tl, nextId, segs, events⟩ : SCore T) =
            outerGo δ rest ⟨bufApp bufs d x, d :: tl, nextId, segs,
              ⟨x, false, d :: tl, .routed d⟩ :: events⟩ := by
          simp [outerGo, hdel]
        rw [hred]
        exact ih ⟨bufApp bufs d x, d :: tl, nextId, segs,
          ⟨x, false, d :: tl, .routed d⟩ :: events⟩ hpw hbd hone h2
      | nil =>
        have hred : outerGo δ (x :: rest) (⟨bufs, [], nextId, segs, events⟩ : SCore T) =
            ⟨.item (nextId + 1), rest,
             ⟨upsert bufs (nextId + 1) [x], [nextId + 1], nextId + 1,
              upsert segs (nextId + 1) .notStarted,
              ⟨x, false, [], .newSeg (nextId + 1)⟩ :: events⟩, .loopTop⟩ := by
          simp [outerGo, hdel]
        rw [hred]
        dsimp only
        refine ⟨by simp, ?_, ?_, ?_⟩
        · intro _ j hj
          simp only [List.mem_singleton] at hj
          omega
        · intro j hj
          simp only [List.mem_singleton] at hj
          omega
        · intro e he
          rcases List.mem_cons.mp he with rfl | he
          · intro _ h2
            exact absurd rfl h2
          · exact hev e he

theorem segGo_inv {T : Type} (δ : T → Bool) (i : Nat) :
    ∀ (src : List T) (c : SCore T),
      c.active.Pairwise (· < ·) →
      (∀ e ∈ c.events, GoodEv e) →
      (segGo δ i src c).core.active.Pairwise (· < ·) ∧
      (∀ j ∈ (segGo δ i src c).core.active, j ∈ c.active) ∧
      (segGo δ i src c).core.nextId = c.nextId ∧
      (∀ e ∈ (segGo δ i src c).core.events, GoodEv e) := by
  intro src
  induction src with
  | nil =>
    rintro ⟨bufs, active, nextId, segs, events⟩ hpw hev
    dsimp only at hpw hev ⊢
    cases hbuf : bufGet bufs i with
    | cons y t =>
      have hred : segGo δ i [] (⟨bufs, active, nextId, segs, events⟩ : SCore T) =
          ⟨.item y, [], ⟨upsert bufs i t, active, nextId, segs, events⟩, .running t.length⟩ := by
        simp [segGo, hbuf]
      rw [hred]
      dsimp only
      exact ⟨hpw, fun j hj => hj, rfl, hev⟩
    | nil =>
      by_cases hmem : i ∈ active
      · have hred : segGo δ i [] (⟨bufs, active, nextId, segs, events⟩ : SCore T) =
            ⟨.stop, [], ⟨bufs, active.erase i, nextId, segs, events⟩, .dead⟩ := by
          simp [segGo, hbuf, hmem]
        rw [hred]
        dsimp only
        exact ⟨hpw.sublist (List.erase_sublist i active),
               fun j hj => List.mem_of_mem_erase hj, rfl, hev⟩
      · have hred : segGo δ i [] (⟨bufs, active, nextId, segs, events⟩ : SCore T) =
            ⟨.stop, [], ⟨bufs, active, nextId, segs, events⟩, .dead⟩ := by
          simp [segGo, hbuf, hmem]
        rw [hred]
        dsimp only
        exact ⟨hpw, fun j hj => hj, rfl, hev⟩
  | cons x rest ih =>
    rintro ⟨bufs, active, nextId, segs, events⟩ hpw hev
    dsimp only at hpw hev ⊢
    cases hbuf : bufGet bufs i with
    | cons y t =>
      have hred : segGo δ i (x :: rest) (⟨bufs, active, nextId, segs, events⟩ : SCore T) =
          ⟨.item y, x :: rest, ⟨upsert bufs i t, active, nextId, segs, events⟩,
           .running t.length⟩ := by
        simp [segGo, hbuf]
      rw [hred]
      dsimp only
      exact ⟨hpw, fun j hj => hj, rfl, hev⟩
    | nil =>
      by_cases hmem : i ∈ active
      · by_cases hdel : δ x = true
        · have h2 : ∀ e ∈ (⟨x, true, active, .delimPop⟩ : SplitEv T) :: events, GoodEv e := by
            intro e he
            rcases List.mem_cons.mp he with rfl | he
            · intro h1 _
              exact Bool.noConfusion h1
            · exact hev e he
          have hred : segGo δ i (x :: rest) (⟨bufs, active, nextId, segs, events⟩ : SCore T) =
              segGo δ i rest ⟨bufs, active.tail, nextId, segs,
                ⟨x, true, active, .delimPop⟩ :: events⟩ := by
            simp [segGo, hbuf, hmem, hdel]
          rw [hred]
          have hres := ih ⟨bufs, active.tail, nextId, segs,
            ⟨x, true, active, .delimPop⟩ :: events⟩ (hpw.sublist (List.tail_sublist _)) h2
          exact ⟨hres.1, fun j hj => List.mem_of_mem_tail (hres.2.1 j hj),
                 hres.2.2.1, hres.2.2.2⟩
        · cases active with
          | nil => exact absurd hmem (List.not_mem_nil i)
          | cons d tl =>
            have h2 : ∀ e ∈ (⟨x, false, d :: tl, .routed d⟩ : SplitEv T) :: events,
                GoodEv e := by
              intro e he
              rcases List.mem_cons.mp he with rfl | he
              · intro _ _
                refine ⟨d, rfl, List.mem_cons_self d tl, ?_⟩
                intro j hj
                rcases List.mem_cons.mp hj with rfl | hj
                · exact Nat.le_refl j
                · exact Nat.le_of_lt ((List.pairwise_cons.mp hpw).1 j hj)
              · exact hev e he
            have hred : segGo δ i (x :: rest)
                (⟨bufs, d :: tl, nextId, segs, events⟩ : SCore T) =
                segGo δ i rest ⟨bufApp bufs d x, d :: tl, nextId, segs,
                  ⟨x, false, d :: tl, .routed d⟩ :: events⟩ := by
              simp [segGo, hbuf, hmem, hdel]
            rw [hred]
            exact ih ⟨bufApp bufs d x, d :: tl, nextId, segs,
              ⟨x, false, d :: tl, .routed d⟩ :: events⟩ hpw h2
      · have hred : segGo δ i (x :: rest) (⟨bufs, active, nextId, segs, events⟩ : SCore T) =
            ⟨.stop, x :: rest, ⟨bufs, active, nextId, segs, events⟩, .dead⟩ := by
          simp [segGo, hbuf, hmem]
        rw [hred]
        dsimp only
        exact ⟨hpw, fun j hj => hj, rfl, hev⟩

theorem splitNext_inv {T : Type} (δ : T → Bool) {st : SplitState T} (h : SInv st) :
    SInv (splitNext δ st).2 := by
  obtain ⟨hpw, hbd, hone, hev⟩ := h
  match hpc : st.outerPC with
  | .done =>
    simp only [splitNext, hpc]
    exact ⟨hpw, fun h' => hbd (hpc ▸ h'), hone, hev⟩
  | .lastYield =>
    simp only [splitNext, hpc]
    refine ⟨hpw, ?_, hone, hev⟩
    intro h'
    simp at h'
  | .loopTop =>
    have hres := outerGo_inv δ st.src st.core hpw (hbd hpc) hone hev
    simp only [splitNext, hpc]
    exact ⟨hres.1, hres.2.1, hres.2.2.1, hres.2.2.2⟩

theorem segStep_inv {T : Type} (δ : T → Bool) (i : Nat) {st : SplitState T}
    (h : SInv st) : SInv (segStep δ i st).2 := by
  obtain ⟨hpw, hbd, hone, hev⟩ := h
  have hres := segGo_inv δ i st.src st.core hpw hev
  refine ⟨hres.1, ?_, ?_, hres.2.2.2⟩
  · intro hpc j hj
    have := hbd hpc j (hres.2.1 j hj)
    rw [segStep]
    dsimp only
    rw [hres.2.2.1]
    exact this
  · intro j hj
    exact hone j (hres.2.1 j hj)

theorem subgenNext_inv {T : Type} (δ : T → Bool) (i : Nat) {st : SplitState T}
    (h : SInv st) : SInv (subgenNext δ i st).2 := by
  obtain ⟨hpw, hbd, hone, hev⟩ := h
  match hseg : aget st.core.segs i with
  | none =>
    simp only [subgenNext, hseg]
    exact ⟨hpw, hbd, hone, hev⟩
  | some .dead =>
    simp only [subgenNext, hseg]
    exact ⟨hpw, hbd, hone, hev⟩
  | some .notStarted =>
    by_cases hmem : i ∈ st.core.active
    · simp only [subgenNext, hseg, hmem, if_true]
      exact segStep_inv δ i ⟨hpw, hbd, hone, hev⟩
    · simp only [subgenNext, hseg, hmem, if_false]
      exact ⟨hpw, hbd, hone, hev⟩
  | some (.running 0) =>
    simp only [subgenNext, hseg]
    exact segStep_inv δ i ⟨hpw, hbd, hone, hev⟩
  | some (.running (m + 1)) =>
    cases hbuf : bufGet st.core.bufs i with
    | nil =>
      simp only [subgenNext, hseg, hbuf]
      exact ⟨hpw, hbd, hone, hev⟩
    | cons y t =>
      simp only [subgenNext, hseg, hbuf]
      exact ⟨hpw, hbd, hone, hev⟩

theorem splitStep_inv {T : Type} (δ : T → Bool) (a : SAct) {st : SplitState T}
    (h : SInv st) : SInv (splitStep δ a st) := by
  cases a with
  | outer =>
    have := splitNext_inv δ h
    exact ⟨this.1, this.2.1, this.2.2.1, this.2.2.2⟩
  | seg i =>
    have := subgenNext_inv δ i h
    exact ⟨this.1, this.2.1, this.2.2.1, this.2.2.2⟩

theorem splitRun_inv {T : Type} (δ : T → Bool) (sched : List SAct) :
    ∀ {st : SplitState T}, SInv st → SInv (splitRun δ sched st) := by
  induction sched with
  | nil => intro st h; exact h
  | cons a rest ih =>
    intro st h
    rw [splitRun]
    exact ih (splitStep_inv δ a h)

theorem splitInit_inv {T : Type} (S : List T) : SInv (splitInit S) := by
  refine ⟨by simp [splitInit], by simp [splitInit], by simp [splitInit], by simp [splitInit]⟩

/-- Claim C5: under every consumer read order, whenever a non-delimiter
source item is pulled while the active set is non-empty — no matter which
derived generator triggered the pull — the item is appended to the buffer of
the first entry of the creation-ordered active set, which is the oldest
still-open segment (the least id), never to a newer segment. -/
theorem split_first_buffer_rule {T : Type} (δ : T → Bool) (S : List T)
    (sched : List SAct) :
    ∀ e ∈ (splitRun δ sched (splitInit S)).core.events,
      e.isDelim = false → e.act ≠ [] →
      ∃ d, e.out = .routed d ∧ d ∈ e.act ∧ ∀ j ∈ e.act, d ≤ j :=
  (splitRun_inv δ sched (splitInit_inv S)).2.2.2

/-- Witness for the first-buffer rule: delimiter 0 on source [0,1,2], two
outer pulls; the pull of item 1 happened with active set [1] and was routed
to segment 1. -/
theorem split_first_buffer_rule_witness :
    ∃ d, SOutcome.routed 1 = SOutcome.routed d ∧ d ∈ [1] ∧ ∀ j ∈ [1], d ≤ j :=
  split_first_buffer_rule (fun x => x == 0) [0, 1, 2] [.outer, .outer]
    ⟨1, false, [1], .routed 1⟩ (by decide) rfl (by decide)

/-! ## Split: the direct-yield branch of subgen is unreachable -/

theorem outerGo_no_direct {T : Type} (δ : T → Bool) :
    ∀ (src : List T) (c : SCore T),
      (∀ e ∈ c.events, e.out ≠ SOutcome.direct) →
      ∀ e ∈ (outerGo δ src c).core.events, e.out ≠ SOutcome.direct := by
  intro src
  induction src with
  | nil =>
    rintro ⟨bufs, active, nextId, segs, events⟩ hev
    dsimp only at hev ⊢
    by_cases h0 : nextId = 0
    · subst h0
      intro e he
      refine hev e ?_
      have : (outerGo δ [] (⟨bufs, active, 0, segs, events⟩ : SCore T)).core.events =
          events := by
        simp [outerGo]
      rwa [this] at he
    · intro e he
      refine hev e ?_
      have : (outerGo δ [] (⟨bufs, active, nextId, segs, events⟩ : SCore T)).core.events =
          events := by
        simp [outerGo, h0]
      rwa [this] at he
  | cons x rest ih =>
    rintro ⟨bufs, active, nextId, segs, events⟩ hev
    dsimp only at hev ⊢
    by_cases hdel : δ x = true
    · have hred : (outerGo δ (x :: rest)
          (⟨bufs, active, nextId, segs, events⟩ : SCore T)).core.events =
          ⟨x, true, active, .delimPop⟩ :: events := by
        simp [outerGo, hdel]
      rw [hred]
      intro e he
      rcases List.mem_cons.mp he with rfl | he
      · simp
      · exact hev e he
    · cases active with
      | cons d tl =>
        have hred : outerGo δ (x :: rest) (⟨bufs, d :: tl, nextId, segs, events⟩ : SCore T) =
            outerGo δ rest ⟨bufApp bufs d x, d :: tl, nextId, segs,
              ⟨x, false, d :: tl, .routed d⟩ :: events⟩ := by
          simp [outerGo, hdel]
        rw [hred]
        refine ih _ ?_
        intro e he
        rcases List.mem_cons.mp he with rfl | he
        · simp
        · exact hev e he
      | nil =>
        have hred : (outerGo δ (x :: rest)
            (⟨bufs, [], nextId, segs, events⟩ : SCore T)).core.events =
            ⟨x, false, [], .newSeg (nextId + 1)⟩ :: events := by
          simp [outerGo, hdel]
        rw [hred]
        intro e he
        rcases List.mem_cons.mp he with rfl | he
        · simp
        · exact hev e he

theorem segGo_no_direct {T : Type} (δ : T → Bool) (i : Nat) :
    ∀ (src : List T) (c : SCore T),
      (∀ e ∈ c.events, e.out ≠ SOutcome.direct) →
      ∀ e ∈ (segGo δ i src c).core.events, e.out ≠ SOutcome.direct := by
  intro src
  induction src with
  | nil =>
    rintro ⟨bufs, active, nextId, segs, events⟩ hev
    dsimp only at hev ⊢
    intro e he
    refine hev e ?_
    have : (segGo δ i [] (⟨bufs, active, nextId, segs, events⟩ : SCore T)).core.events =
        events := by
      cases hbuf : bufGet bufs i with
      | cons y t => simp [segGo, hbuf]
      | nil =>
        by_cases hmem : i ∈ active
        · simp [segGo, hbuf, hmem]
        · simp [segGo, hbuf, hmem]
    rwa [this] at he
  | cons x rest ih =>
    rintro ⟨bufs, active, nextId, segs, events⟩ hev
    dsimp only at hev ⊢
    cases hbuf : bufGet bufs i with
    | cons y t =>
      have hred : (segGo δ i (x :: rest)
          (⟨bufs, active, nextId, segs, events⟩ : SCore T)).core.events = events := by
        simp [segGo, hbuf]
      rw [hred]
      exact hev
    | nil =>
      by_cases hmem : i ∈ active
      · by_cases hdel : δ x = true
        · have hred : segGo δ i (x :: rest) (⟨bufs, active, nextId, segs, events⟩ : SCore T) =
              segGo δ i rest ⟨bufs, active.tail, nextId, segs,
                ⟨x, true, active, .delimPop⟩ :: events⟩ := by
            simp [segGo, hbuf, hmem, hdel]
          rw [hred]
          refine ih _ ?_
          intro e he
          rcases List.mem_cons.mp he with rfl | he
          · simp
          · exact hev e he
        · cases active with
          | nil => exact absurd hmem (List.not_mem_nil i)
          | cons d tl =>
            have hred : segGo δ i (x :: rest)
                (⟨bufs, d :: tl, nextId, segs, events⟩ : SCore T) =
                segGo δ i rest ⟨bufApp bufs d x, d :: tl, nextId, segs,
                  ⟨x, false, d :: tl, .routed d⟩ :: events⟩ := by
              simp [segGo, hbuf, hmem, hdel]
            rw [hred]
            refine ih _ ?_
            intro e he
            rcases List.mem_cons.mp he with rfl | he
            · simp
            · exact hev e he
      · have hred : (segGo δ i (x :: rest)
            (⟨bufs, active, nextId, segs, events⟩ : SCore T)).core.events = events := by
          simp [segGo, hbuf, hmem]
        rw [hred]
        exact hev

theorem splitNext_no_direct {T : Type} (δ : T → Bool) {st : SplitState T}
    (h : ∀ e ∈ st.core.events, e.out ≠ SOutcome.direct) :
    ∀ e ∈ (splitNext δ st).2.core.events, e.out ≠ SOutcome.direct := by
  match hpc : st.outerPC with
  | .done => simpa [splitNext, hpc] using h
  | .lastYield => simpa [splitNext, hpc] using h
  | .loopTop =>
    simp only [splitNext, hpc]
    exact outerGo_no_direct δ st.src st.core h

theorem subgenNext_no_direct {T : Type} (δ : T → Bool) (i : Nat) {st : SplitState T}
    (h : ∀ e ∈ st.core.events, e.out ≠ SOutcome.direct) :
    ∀ e ∈ (subgenNext δ i st).2.core.events, e.out ≠ SOutcome.direct := by
  have hstep : ∀ e ∈ (segStep δ i st).2.core.events, e.out ≠ SOutcome.direct := by
    rw [segStep]
    dsimp only
    exact segGo_no_direct δ i st.src st.core h
  match hseg : aget st.core.segs i with
  | none => simpa [subgenNext, hseg] using h
  | some .dead => simpa [subgenNext, hseg] using h
  | some .notStarted =>
    by_cases hmem : i ∈ st.core.active
    · simpa [subgenNext, hseg, hmem] using hstep
    · simpa [subgenNext, hseg, hmem] using h
  | some (.running 0) => simpa [subgenNext, hseg] using hstep
  | some (.running (m + 1)) =>
    cases hbuf : bufGet st.core.bufs i with
    | nil => simpa [subgenNext, hseg, hbuf] using h
    | cons y t => simpa [subgenNext, hseg, hbuf] using h

theorem splitRun_no_direct {T : Type} (δ : T → Bool) (sched : List SAct) :
    ∀ {st : SplitState T},
      (∀ e ∈ st.core.events, e.out ≠ SOutcome.direct) →
      ∀ e ∈ (splitRun δ sched st).core.events, e.out ≠ SOutcome.direct := by
  induction sched with
  | nil => intro st h; exact h
  | cons a rest ih =>
    intro st h
    rw [splitRun]
    refine ih ?_
    cases a with
    | outer => exact splitNext_no_direct δ h
    | seg i => exact subgenNext_no_direct δ i h

/-- Claim C10: for every source, delimiter predicate and consumer read
order, whenever subgen pulls a non-delimiter source item the active set is
non-empty at that moment (the pulling segment itself is registered in it,
having passed the membership check), so every pulled item is dispatched
through the first-buffer append or the delimiter pop — the branch of subgen
that would yield the pulled item directly is never taken. -/
theorem split_direct_yield_unreachable {T : Type} (δ : T → Bool) (S : List T)
    (sched : List SAct) :
    ∀ e ∈ (splitRun δ sched (splitInit S)).core.events, e.out ≠ SOutcome.direct :=
  splitRun_no_direct δ sched (by intro e he; simp [splitInit] at he)

/-- Witness for unreachability of the direct-yield branch: the pull of item
2 in the run of delimiter 0 over [0,1,2] was a first-buffer append, not a
direct yield. -/
theorem split_direct_yield_unreachable_witness :
    (⟨2, false, [1], SOutcome.routed 1⟩ : SplitEv Nat).out ≠ SOutcome.direct :=
  split_direct_yield_unreachable (fun x => x == 0) [0, 1, 2] [.outer, .outer]
    ⟨2, false, [1], SOutcome.routed 1⟩ (by decide)

/-! ## Laziness: consumption touches only the needed prefix of the source

Constructing each family consumes nothing, and a run whose final state has
not exhausted the source behaves identically on any extension of the
source: only the consumed prefix was ever examined. -/

theorem scanSrcT_ext {T : Type} (P : T → Bool) :
    ∀ (src : List T) (qb : List (Bool × T)) (ev ext : List T)
      {r : Pulled T} {src' : List T} {qb' : List (Bool × T)} {ev' : List T},
      scanSrcT P src qb ev = (r, src', qb', ev') → src' ≠ [] →
      scanSrcT P (src ++ ext) qb ev = (r, src' ++ ext, qb', ev') := by
  intro src
  induction src with
  | nil =>
    intro qb ev ext r src' qb' ev' h hne
    simp [scanSrcT] at h
    obtain ⟨rfl, rfl, rfl, rfl⟩ := h
    exact absurd rfl hne
  | cons y rest ih =>
    intro qb ev ext r src' qb' ev' h hne
    by_cases hy : P y = true
    · simp only [scanSrcT, hy, if_true] at h
      obtain ⟨rfl, h2⟩ := Prod.mk.injEq .. |>.mp h
      obtain ⟨rfl, h3⟩ := Prod.mk.injEq .. |>.mp h2
      obtain ⟨rfl, rfl⟩ := Prod.mk.injEq .. |>.mp h3
      simp [scanSrcT, hy]
    · simp only [scanSrcT, hy, if_false] at h ⊢
      exact ih _ _ ext h hne

theorem scanSrcF_ext {T : Type} (P : T → Bool) :
    ∀ (src : List T) (qa : List (Bool × T)) (ev ext : List T)
      {r : Pulled T} {src' : List T} {qa' : List (Bool × T)} {ev' : List T},
      scanSrcF P src qa ev = (r, src', qa', ev') → src' ≠ [] →
      scanSrcF P (src ++ ext) qa ev = (r, src' ++ ext, qa', ev') := by
  intro src
  induction src with
  | nil =>
    intro qa ev ext r src' qa' ev' h hne
    simp [scanSrcF] at h
    obtain ⟨rfl, rfl, rfl, rfl⟩ := h
    exact absurd rfl hne
  | cons y rest ih =>
    intro qa ev ext r src' qa' ev' h hne
    by_cases hy : P y = true
    · simp only [scanSrcF, hy, if_true] at h ⊢
      exact ih _ _ ext h hne
    · simp only [scanSrcF, hy, if_false] at h
      obtain ⟨rfl, h2⟩ := Prod.mk.injEq .. |>.mp h
      obtain ⟨rfl, h3⟩ := Prod.mk.injEq .. |>.mp h2
      obtain ⟨rfl, rfl⟩ := Prod.mk.injEq .. |>.mp h3
      simp [scanSrcF, hy]

theorem scanSrcT_src_suffix {T : Type} (P : T → Bool) :
    ∀ (src : List T) (qb : List (Bool × T)) (ev : List T),
      (scanSrcT P src qb ev).2.1 <:+ src := by
  intro src
  induction src with
  | nil => intro qb ev; simp [scanSrcT]
  | cons y rest ih =>
    intro qb ev
    by_cases hy : P y = true
    · simp only [scanSrcT, hy, if_true]
      exact List.suffix_cons y rest
    · simp only [scanSrcT, hy, if_false]
      exact (ih _ _).trans (List.suffix_cons y rest)

theorem scanSrcF_src_suffix {T : Type} (P : T → Bool) :
    ∀ (src : List T) (qa : List (Bool × T)) (ev : List T),
      (scanSrcF P src qa ev).2.1 <:+ src := by
  intro src
  induction src with
  | nil => intro qa ev; simp [scanSrcF]
  | cons y rest ih =>
    intro qa ev
    by_cases hy : P y = true
    · simp only [scanSrcF, hy, if_true]
      exact (ih _ _).trans (List.suffix_cons y rest)
    · simp only [scanSrcF, hy, if_false]
      exact List.suffix_cons y rest

theorem partitionNextT_ext {T : Type} (P : T → Bool) (ext : List T) {st : PartState T}
    (h : (partitionNextT P st).2.src ≠ []) :
    partitionNextT P (partitionExt ext st) =
      ((partitionNextT P st).1, partitionExt ext (partitionNextT P st).2) := by
  match hq : scanQT st.qa with
  | some (x, qa') =>
    simp [partitionNextT, partitionExt, hq]
  | none =>
    match hs : scanSrcT P st.src st.qb st.evals with
    | (r, src', qb', ev') =>
      have hsrc' : src' ≠ [] := by
        match r with
        | .item x => simpa [partitionNextT, hq, hs] using h
        | .stop => simpa [partitionNextT, hq, hs] using h
        | .err => simpa [partitionNextT, hq, hs] using h
      have hext := scanSrcT_ext P st.src st.qb st.evals ext hs hsrc'
      match r with
      | .item x => simp [partitionNextT, partitionExt, hq, hs, hext]
      | .stop => simp [partitionNextT, partitionExt, hq, hs, hext]
      | .err => simp [partitionNextT, partitionExt, hq, hs, hext]

theorem partitionNextF_ext {T : Type} (P : T → Bool) (ext : List T) {st : PartState T}
    (h : (partitionNextF P st).2.src ≠ []) :
    partitionNextF P (partitionExt ext st) =
      ((partitionNextF P st).1, partitionExt ext (partitionNextF P st).2) := by
  match hq : scanQF st.qb with
  | some (x, qb') =>
    simp [partitionNextF, partitionExt, hq]
  | none =>
    match hs : scanSrcF P st.src st.qa st.evals with
    | (r, src', qa', ev') =>
      have hsrc' : src' ≠ [] := by
        match r with
        | .item x => simpa [partitionNextF, hq, hs] using h
        | .stop => simpa [partitionNextF, hq, hs] using h
        | .err => simpa [partitionNextF, hq, hs] using h
      have hext := scanSrcF_ext P st.src st.qa st.evals ext hs hsrc'
      match r with
      | .item x => simp [partitionNextF, partitionExt, hq, hs, hext]
      | .stop => simp [partitionNextF, partitionExt, hq, hs, hext]
      | .err => simp [partitionNextF, partitionExt, hq, hs, hext]

theorem partitionStep_src_suffix {T : Type} (P : T → Bool) (a : PAct)
    (st : PartState T) : (partitionStep P a st).src <:+ st.src := by
  cases a with
  | pullT =>
    match hq : scanQT st.qa with
    | some (x, qa') => simp [partitionStep, partitionNextT, hq]
    | none =>
      match hs : scanSrcT P st.src st.qb st.evals with
      | (r, src', qb', ev') =>
        have := scanSrcT_src_suffix P st.src st.qb st.evals
        rw [hs] at this
        match r with
        | .item x => simpa [partitionStep, partitionNextT, hq, hs] using this
        | .stop => simpa [partitionStep, partitionNextT, hq, hs] using this
        | .err => simpa [partitionStep, partitionNextT, hq, hs] using this
  | pullF =>
    match hq : scanQF st.qb with
    | some (x, qb') => simp [partitionStep, partitionNextF, hq]
    | none =>
      match hs : scanSrcF P st.src st.qa st.evals with
      | (r, src', qa', ev') =>
        have := scanSrcF_src_suffix P st.src st.qa st.evals
        rw [hs] at this
        match r with
        | .item x => simpa [partitionStep, partitionNextF, hq, hs] using this
        | .stop => simpa [partitionStep, partitionNextF, hq, hs] using this
        | .err => simpa [partitionStep, partitionNextF, hq, hs] using this

theorem partitionRun_src_suffix {T : Type} (P : T → Bool) (sched : List PAct) :
    ∀ (st : PartState T), (partitionRun P sched st).src <:+ st.src := by
  induction sched with
  | nil => intro st; exact List.suffix_refl _
  | cons a rest ih =>
    intro st
    rw [partitionRun]
    exact (ih _).trans (partitionStep_src_suffix P a st)

theorem partitionStep_ext {T : Type} (P : T → Bool) (a : PAct) (ext : List T)
    {st : PartState T} (h : (partitionStep P a st).src ≠ []) :
    partitionStep P a (partitionExt ext st) = partitionExt ext (partitionStep P a st) := by
  cases a with
  | pullT =>
    have := partitionNextT_ext P ext h
    simp only [partitionStep]
    rw [this]
  | pullF =>
    have := partitionNextF_ext P ext h
    simp only [partitionStep]
    rw [this]

theorem partitionRun_ext {T : Type} (P : T → Bool) (sched : List PAct) (ext : List T) :
    ∀ {st : PartState T}, (partitionRun P sched st).src ≠ [] →
      partitionRun P sched (partitionExt ext st) =
        partitionExt ext (partitionRun P sched st) := by
  induction sched with
  | nil => intro st _; rfl
  | cons a rest ih =>
    intro st h
    rw [partitionRun] at h ⊢
    rw [partitionRun]
    have hmid : (partitionStep P a st).src ≠ [] := by
      intro hnil
      have hsuf := partitionRun_src_suffix P rest (partitionStep P a st)
      rw [hnil] at hsuf
      exact h (List.suffix_nil.mp hsuf)
    rw [partitionStep_ext P a ext hmid]
    exact ih h

theorem subGo_ext {K T : Type} [DecidableEq K] (key : T → K) (k : K) :
    ∀ (src : List T) (bufs : List (K × List T)) (ext : List T),
      (subGo key k src bufs).src ≠ [] →
      subGo key k (src ++ ext) bufs =
        ⟨(subGo key k src bufs).r, (subGo key k src bufs).src ++ ext,
         (subGo key k src bufs).bufs⟩ := by
  intro src
  induction src with
  | nil =>
    intro bufs ext h
    have : (subGo key k [] bufs).src = [] := by
      cases hbuf : bufGet bufs k with
      | cons y t => simp [subGo, hbuf]
      | nil => simp [subGo, hbuf]
    exact absurd this h
  | cons x rest ih =>
    intro bufs ext h
    cases hbuf : bufGet bufs k with
    | cons y t => simp [subGo, hbuf]
    | nil =>
      simp only [subGo, hbuf, List.cons_append] at h ⊢
      exact ih _ ext h

theorem subGo_src_suffix {K T : Type} [DecidableEq K] (key : T → K) (k : K) :
    ∀ (src : List T) (bufs : List (K × List T)), (subGo key k src bufs).src <:+ src := by
  intro src
  induction src with
  | nil =>
    intro bufs
    cases hbuf : bufGet bufs k with
    | cons y t => simp [subGo, hbuf]
    | nil => simp [subGo, hbuf]
  | cons x rest ih =>
    intro bufs
    cases hbuf : bufGet bufs k with
    | cons y t =>
      have : (subGo key k (x :: rest) bufs).src = x :: rest := by simp [subGo, hbuf]
      rw [this]
    | nil =>
      have hred : subGo key k (x :: rest) bufs =
          subGo key k rest (bufApp bufs (key x) x) := by
        simp [subGo, hbuf]
      rw [hred]
      exact (ih _).trans (List.suffix_cons x rest)

theorem gOuterGo_ext {K T : Type} [DecidableEq K] (key : T → K) :
    ∀ (src : List T) (bufs : List (K × List T)) (seen : List K) (ext : List T),
      (gOuterGo key src bufs seen).src ≠ [] →
      gOuterGo key (src ++ ext) bufs seen =
        ⟨(gOuterGo key src bufs seen).r, (gOuterGo key src bufs seen).src ++ ext,
         (gOuterGo key src bufs seen).bufs, (gOuterGo key src bufs seen).seen,
         (gOuterGo key src bufs seen).pc⟩ := by
  intro src
  induction src with
  | nil =>
    intro bufs seen ext h
    have : (gOuterGo key [] bufs seen).src = [] := by
      rcases hsf : scanFinal bufs seen (bufs.map Prod.fst) with ⟨r0, pc0⟩
      simp [gOuterGo, hsf]
    exact absurd this h
  | cons x rest ih =>
    intro bufs seen ext h
    by_cases hseen : key x ∈ seen
    · simp only [gOuterGo, hseen, if_true, List.cons_append] at h ⊢
      exact ih _ _ ext h
    · simp [gOuterGo, hseen]

theorem gOuterGo_src_suffix {K T : Type} [DecidableEq K] (key : T → K) :
    ∀ (src : List T) (bufs : List (K × List T)) (seen : List K),
      (gOuterGo key src bufs seen).src <:+ src := by
  intro src
  induction src with
  | nil =>
    intro bufs seen
    rcases hsf : scanFinal bufs seen (bufs.map Prod.fst) with ⟨r0, pc0⟩
    simp [gOuterGo, hsf]
  | cons x rest ih =>
    intro bufs seen
    by_cases hseen : key x ∈ seen
    · have hred : gOuterGo key (x :: rest) bufs seen =
          gOuterGo key rest (bufApp bufs (key x) x) seen := by
        simp [gOuterGo, hseen]
      rw [hred]
      exact (ih _ _).trans (List.suffix_cons x rest)
    · have : (gOuterGo key (x :: rest) bufs seen).src = rest := by
        simp [gOuterGo, hseen]
      rw [this]
      exact List.suffix_cons x rest

theorem groupbyNext_ext {K T : Type} [DecidableEq K] (key : T → K) (ext : List T)
    {st : GState K T} (h : (groupbyNext key st).2.src ≠ []) :
    groupbyNext key (groupbyExt ext st) =
      ((groupbyNext key st).1, groupbyExt ext (groupbyNext key st).2) := by
  match hpc : st.pc with
  | .done => simp [groupbyNext, groupbyExt, hpc]
  | .finalPass rem =>
    rcases hsf : scanFinal st.bufs st.seen rem with ⟨r0, pc0⟩
    simp [groupbyNext, groupbyExt, hpc, hsf]
  | .loopTop =>
    have hsrc : (gOuterGo key st.src st.bufs st.seen).src ≠ [] := by
      simpa [groupbyNext, hpc] using h
    have hext := gOuterGo_ext key st.src st.bufs st.seen ext hsrc
    simp [groupbyNext, groupbyExt, hpc, hext]

theorem subseqNext_ext {K T : Type} [DecidableEq K] (key : T → K) (k : K) (ext : List T)
    {st : GState K T} (h : (subseqNext key k st).2.src ≠ []) :
    subseqNext key k (groupbyExt ext st) =
      ((subseqNext key k st).1, groupbyExt ext (subseqNext key k st).2) := by
  by_cases hseen : k ∈ st.seen
  · have hsrc : (subGo key k st.src st.bufs).src ≠ [] := by
      simpa [subseqNext, hseen] using h
    have hext := subGo_ext key k st.src st.bufs ext hsrc
    simp [subseqNext, groupbyExt, hseen, hext]
  · simp [subseqNext, groupbyExt, hseen]

theorem groupbyStep_src_suffix {K T : Type} [DecidableEq K] (key : T → K) (a : GAct K)
    (st : GState K T) : (groupbyStep key a st).src <:+ st.src := by
  cases a with
  | outer =>
    match hpc : st.pc with
    | .done => simp [groupbyStep, groupbyNext, hpc]
    | .finalPass rem =>
      rcases hsf : scanFinal st.bufs st.seen rem with ⟨r0, pc0⟩
      simp [groupbyStep, groupbyNext, hpc, hsf]
    | .loopTop =>
      have := gOuterGo_src_suffix key st.src st.bufs st.seen
      simpa [groupbyStep, groupbyNext, hpc] using this
  | group k =>
    by_cases hseen : k ∈ st.seen
    · have := subGo_src_suffix key k st.src st.bufs
      simpa [groupbyStep, subseqNext, hseen] using this
    · simp [groupbyStep, subseqNext, hseen]

theorem groupbyRun_src_suffix {K T : Type} [DecidableEq K] (key : T → K)
    (sched : List (GAct K)) :
    ∀ (st : GState K T), (groupbyRun key sched st).src <:+ st.src := by
  induction sched with
  | nil => intro st; exact List.suffix_refl _
  | cons a rest ih =>
    intro st
    rw [groupbyRun]
    exact (ih _).trans (groupbyStep_src_suffix key a st)

theorem groupbyStep_ext {K T : Type} [DecidableEq K] (key : T → K) (a : GAct K)
    (ext : List T) {st : GState K T} (h : (groupbyStep key a st).src ≠ []) :
    groupbyStep key a (groupbyExt ext st) = groupbyExt ext (groupbyStep key a st) := by
  cases a with
  | outer =>
    have h' : (groupbyNext key st).2.src ≠ [] := by
      simpa [groupbyStep] using h
    simp only [groupbyStep]
    rw [groupbyNext_ext key ext h']
    simp [groupbyExt]
  | group k =>
    have h' : (subseqNext key k st).2.src ≠ [] := by
      simpa [groupbyStep] using h
    simp only [groupbyStep]
    rw [subseqNext_ext key k ext h']
    simp [groupbyExt]

theorem groupbyRun_ext {K T : Type} [DecidableEq K] (key : T → K)
    (sched : List (GAct K)) (ext : List T) :
    ∀ {st : GState K T}, (groupbyRun key sched st).src ≠ [] →
      groupbyRun key sched (groupbyExt ext st) =
        groupbyExt ext (groupbyRun key sched st) := by
  induction sched with
  | nil => intro st _; rfl
  | cons a rest ih =>
    intro st h
    rw [groupbyRun] at h ⊢
    rw [groupbyRun]
    have hmid : (groupbyStep key a st).src ≠ [] := by
      intro hnil
      have hsuf := groupbyRun_src_suffix key rest (groupbyStep key a st)
      rw [hnil] at hsuf
      exact h (List.suffix_nil.mp hsuf)
    rw [groupbyStep_ext key a ext hmid]
    exact ih h

theorem outerGo_ext {T : Type} (δ : T → Bool) :
    ∀ (src : List T) (c : SCore T) (ext : List T),
      (outerGo δ src c).src ≠ [] →
      outerGo δ (src ++ ext) c =
        ⟨(outerGo δ src c).r, (outerGo δ src c).src ++ ext,
         (outerGo δ src c).core, (outerGo δ src c).pc⟩ := by
  intro src
  induction src with
  | nil =>
    intro c ext h
    have : (outerGo δ [] c).src = [] := by
      by_cases h0 : c.nextId = 0 <;> simp [outerGo, h0]
    exact absurd this h
  | cons x rest ih =>
    intro c ext h
    by_cases hdel : δ x = true
    · simp [outerGo, hdel]
    · cases hact : c.active with
      | cons d tl =>
        have hmem := hact
        simp only [outerGo, hdel, hact, if_false, Bool.not_eq_true, List.cons_append] at h ⊢
        exact ih _ ext h
      | nil => simp [outerGo, hdel, hact]

theorem segGo_ext {T : Type} (δ : T → Bool) (i : Nat) :
    ∀ (src : List T) (c : SCore T) (ext : List T),
      (segGo δ i src c).src ≠ [] →
      segGo δ i (src ++ ext) c =
        ⟨(segGo δ i src c).r, (segGo δ i src c).src ++ ext,
         (segGo δ i src c).core, (segGo δ i src c).pc⟩ := by
  intro src
  induction src with
  | nil =>
    intro c ext h
    have : (segGo δ i [] c).src = [] := by
      cases hbuf : bufGet c.bufs i with
      | cons y t => simp [segGo, hbuf]
      | nil => by_cases hmem : i ∈ c.active <;> simp [segGo, hbuf, hmem]
    exact absurd this h
  | cons x rest ih =>
    intro c ext h
    cases hbuf : bufGet c.bufs i with
    | cons y t => simp [segGo, hbuf]
    | nil =>
      by_cases hmem : i ∈ c.active
      · by_cases hdel : δ x = true
        · simp only [segGo, hbuf, hmem, hdel, if_true, List.cons_append] at h ⊢
          exact ih _ ext h
        · cases hact : c.active with
          | nil =>
            rw [hact] at hmem
            exact absurd hmem (List.not_mem_nil i)
          | cons d tl =>
            have hmem' : i ∈ d :: tl := hact ▸ hmem
            simp only [segGo, hbuf, hmem, hmem', hdel, hact, if_true, if_false,
              Bool.not_eq_true, List.cons_append] at h ⊢
            exact ih _ ext h
      · simp [segGo, hbuf, hmem]

theorem outerGo_src_suffix {T : Type} (δ : T → Bool) :
    ∀ (src : List T) (c : SCore T), (outerGo δ src c).src <:+ src := by
  intro src
  induction src with
  | nil =>
    intro c
    have : (outerGo δ [] c).src = [] := by
      by_cases h0 : c.nextId = 0 <;> simp [outerGo, h0]
    rw [this]
  | cons x rest ih =>
    intro c
    by_cases hdel : δ x = true
    · have : (outerGo δ (x :: rest) c).src = rest := by simp [outerGo, hdel]
      rw [this]
      exact List.suffix_cons x rest
    · cases hact : c.active with
      | cons d tl =>
        have hred : outerGo δ (x :: rest) c =
            outerGo δ rest ⟨bufApp c.bufs d x, c.active, c.nextId, c.segs,
              ⟨x, false, c.active, .routed d⟩ :: c.events⟩ := by
          simp [outerGo, hdel, hact]
        rw [hred]
        exact (ih _).trans (List.suffix_cons x rest)
      | nil =>
        have : (outerGo δ (x :: rest) c).src = rest := by simp [outerGo, hdel, hact]
        rw [this]
        exact List.suffix_cons x rest

theorem segGo_src_suffix {T : Type} (δ : T → Bool) (i : Nat) :
    ∀ (src : List T) (c : SCore T), (segGo δ i src c).src <:+ src := by
  intro src
  induction src with
  | nil =>
    intro c
    have : (segGo δ i [] c).src = [] := by
      cases hbuf : bufGet c.bufs i with
      | cons y t => simp [segGo, hbuf]
      | nil => by_cases hmem : i ∈ c.active <;> simp [segGo, hbuf, hmem]
    rw [this]
  | cons x rest ih =>
    intro c
    cases hbuf : bufGet c.bufs i with
    | cons y t =>
      have : (segGo δ i (x :: rest) c).src = x :: rest := by simp [segGo, hbuf]
      rw [this]
    | nil =>
      by_cases hmem : i ∈ c.active
      · by_cases hdel : δ x = true
        · have hred : segGo δ i (x :: rest) c =
              segGo δ i rest ⟨c.bufs, c.active.tail, c.nextId, c.segs,
                ⟨x, true, c.active, .delimPop⟩ :: c.events⟩ := by
            simp [segGo, hbuf, hmem, hdel]
          rw [hred]
          exact (ih _).trans (List.suffix_cons x rest)
        · cases hact : c.active with
          | nil =>
            rw [hact] at hmem
            exact absurd hmem (List.not_mem_nil i)
          | cons d tl =>
            have hmem' : i ∈ d :: tl := hact ▸ hmem
            have hred : segGo δ i (x :: rest) c =
                segGo δ i rest ⟨bufApp c.bufs d x, c.active, c.nextId, c.segs,
                  ⟨x, false, c.active, .routed d⟩ :: c.events⟩ := by
              simp [segGo, hbuf, hmem, hmem', hdel, hact]
            rw [hred]
            exact (ih _).trans (List.suffix_cons x rest)
      · have : (segGo δ i (x :: rest) c).src = x :: rest := by simp [segGo, hbuf, hmem]
        rw [this]

theorem splitNext_ext {T : Type} (δ : T → Bool) (ext : List T) {st : SplitState T}
    (h : (splitNext δ st).2.src ≠ []) :
    splitNext δ (splitExt ext st) =
      ((splitNext δ st).1, splitExt ext (splitNext δ st).2) := by
  match hpc : st.outerPC with
  | .done => simp [splitNext, splitExt, hpc]
  | .lastYield => simp [splitNext, splitExt, hpc]
  | .loopTop =>
    have hsrc : (outerGo δ st.src st.core).src ≠ [] := by
      simpa [splitNext, hpc] using h
    have hext := outerGo_ext δ st.src st.core ext hsrc
    simp [splitNext, splitExt, hpc, hext]

theorem segStep_ext {T : Type} (δ : T → Bool) (i : Nat) (ext : List T) {st : SplitState T}
    (h : (segStep δ i st).2.src ≠ []) :
    segStep δ i (splitExt ext st) =
      ((segStep δ i st).1, splitExt ext (segStep δ i st).2) := by
  have hsrc : (segGo δ i st.src st.core).src ≠ [] := by
    simpa [segStep] using h
  have hext := segGo_ext δ i st.src st.core ext hsrc
  simp [segStep, splitExt, hext]

theorem subgenNext_ext {T : Type} (δ : T → Bool) (i : Nat) (ext : List T)
    {st : SplitState T} (h : (subgenNext δ i st).2.src ≠ []) :
    subgenNext δ i (splitExt ext st) =
      ((subgenNext δ i st).1, splitExt ext (subgenNext δ i st).2) := by
  match hseg : aget st.core.segs i with
  | none => simp [subgenNext, splitExt, hseg]
  | some .dead => simp [subgenNext, splitExt, hseg]
  | some .notStarted =>
    by_cases hmem : i ∈ st.core.active
    · have hstep : (segStep δ i st).2.src ≠ [] := by
        simpa [subgenNext, hseg, hmem] using h
      have := segStep_ext δ i ext hstep
      simp only [subgenNext, splitExt, hseg, hmem, if_true]
      simpa [splitExt] using this
    · simp [subgenNext, splitExt, hseg, hmem]
  | some (.running 0) =>
    have hstep : (segStep δ i st).2.src ≠ [] := by
      simpa [subgenNext, hseg] using h
    have := segStep_ext δ i ext hstep
    simp only [subgenNext, splitExt, hseg]
    simpa [splitExt] using this
  | some (.running (m + 1)) =>
    cases hbuf : bufGet st.core.bufs i with
    | nil => simp [subgenNext, splitExt, hseg, hbuf]
    | cons y t => simp [subgenNext, splitExt, hseg, hbuf]

theorem splitNext_src_suffix {T : Type} (δ : T → Bool) (st : SplitState T) :
    (splitNext δ st).2.src <:+ st.src := by
  match hpc : st.outerPC with
  | .done => simp [splitNext, hpc]
  | .lastYield => simp [splitNext, hpc]
  | .loopTop =>
    have := outerGo_src_suffix δ st.src st.core
    simpa [splitNext, hpc] using this

theorem subgenNext_src_suffix {T : Type} (δ : T → Bool) (i : Nat) (st : SplitState T) :
    (subgenNext δ i st).2.src <:+ st.src := by
  have hstep : (segStep δ i st).2.src <:+ st.src := by
    have := segGo_src_suffix δ i st.src st.core
    simpa [segStep] using this
  match hseg : aget st.core.segs i with
  | none => simp [subgenNext, hseg]
  | some .dead => simp [subgenNext, hseg]
  | some .notStarted =>
    by_cases hmem : i ∈ st.core.active
    · simpa [subgenNext, hseg, hmem] using hstep
    · simp [subgenNext, hseg, hmem]
  | some (.running 0) => simpa [subgenNext, hseg] using hstep
  | some (.running (m + 1)) =>
    cases hbuf : bufGet st.core.bufs i with
    | nil => simp [subgenNext, hseg, hbuf]
    | cons y t => simp [subgenNext, hseg, hbuf]

theorem splitStep_src_suffix {T : Type} (δ : T → Bool) (a : SAct) (st : SplitState T) :
    (splitStep δ a st).src <:+ st.src := by
  cases a with
  | outer =>
    have := splitNext_src_suffix δ st
    simpa [splitStep] using this
  | seg i =>
    have := subgenNext_src_suffix δ i st
    simpa [splitStep] using this

theorem splitRun_src_suffix {T : Type} (δ : T → Bool) (sched : List SAct) :
    ∀ (st : SplitState T), (splitRun δ sched st).src <:+ st.src := by
  induction sched with
  | nil => intro st; exact List.suffix_refl _
  | cons a rest ih =>
    intro st
    rw [splitRun]
    exact (ih _).trans (splitStep_src_suffix δ a st)

theorem splitStep_ext {T : Type} (δ : T → Bool) (a : SAct) (ext : List T)
    {st : SplitState T} (h : (splitStep δ a st).src ≠ []) :
    splitStep δ a (splitExt ext st) = splitExt ext (splitStep δ a st) := by
  cases a with
  | outer =>
    have h' : (splitNext δ st).2.src ≠ [] := by
      simpa [splitStep] using h
    simp only [splitStep]
    rw [splitNext_ext δ ext h']
    simp [splitExt]
  | seg i =>
    have h' : (subgenNext δ i st).2.src ≠ [] := by
      simpa [splitStep] using h
    simp only [splitStep]
    rw [subgenNext_ext δ i ext h']
    simp [splitExt]

theorem splitRun_ext {T : Type} (δ : T → Bool) (sched : List SAct) (ext : List T) :
    ∀ {st : SplitState T}, (splitRun δ sched st).src ≠ [] →
      splitRun δ sched (splitExt ext st) = splitExt ext (splitRun δ sched st) := by
  induction sched with
  | nil => intro st _; rfl
  | cons a rest ih =>
    intro st h
    rw [splitRun] at h ⊢
    rw [splitRun]
    have hmid : (splitStep δ a st).src ≠ [] := by
      intro hnil
      have hsuf := splitRun_src_suffix δ rest (splitStep δ a st)
      rw [hnil] at hsuf
      exact h (List.suffix_nil.mp hsuf)
    rw [splitStep_ext δ a ext hmid]
    exact ih h

/-- Claim C9: constructing split, groupby or partition consumes zero items of
the source — the state returned by the call still carries the entire source,
which is first pulled only when a derived sequence is asked for its next
element — and any consumer run that has not exhausted the source behaves
identically (same results, same buffers, same logs) on every extension of the
source, so when only finitely many items are requested from an unboundedly
large source, only the bounded prefix those pulls consumed is ever
examined. -/
theorem construction_is_lazy {T K : Type} [DecidableEq K] (δ P : T → Bool)
    (key : T → K) (S ext : List T) :
    (splitInit S).src = S ∧
    (partitionInit S).src = S ∧
    (groupbyInit (K := K) S).src = S ∧
    (∀ sched : List SAct, (splitRun δ sched (splitInit S)).src ≠ [] →
      splitRun δ sched (splitInit (S ++ ext)) =
        splitExt ext (splitRun δ sched (splitInit S))) ∧
    (∀ sched : List PAct, (partitionRun P sched (partitionInit S)).src ≠ [] →
      partitionRun P sched (partitionInit (S ++ ext)) =
        partitionExt ext (partitionRun P sched (partitionInit S))) ∧
    (∀ sched : List (GAct K), (groupbyRun key sched (groupbyInit S)).src ≠ [] →
      groupbyRun key sched (groupbyInit (S ++ ext)) =
        groupbyExt ext (groupbyRun key sched (groupbyInit S))) := by
  refine ⟨rfl, rfl, rfl, ?_, ?_, ?_⟩
  · intro sched h
    have hinit : splitInit (S ++ ext) = splitExt ext (splitInit (T := T) S) := rfl
    rw [hinit]
    exact splitRun_ext δ sched ext h
  · intro sched h
    have hinit : partitionInit (S ++ ext) = partitionExt ext (partitionInit (T := T) S) := rfl
    rw [hinit]
    exact partitionRun_ext P sched ext h
  · intro sched h
    have hinit : groupbyInit (K := K) (S ++ ext) =
        groupbyExt ext (groupbyInit (K := K) S) := rfl
    rw [hinit]
    exact groupbyRun_ext key sched ext h

/-- Witness for laziness: on source [0,1] extended by [7], one pull on each
family (delimiter 9 for split, a constant predicate for partition, the
identity key for groupby) leaves the source non-exhausted and the runs on
the extended source are the extended runs. -/
theorem construction_is_lazy_witness :
    splitRun (fun x => x == 9) [.outer] (splitInit [0, 1, 7]) =
      splitExt [7] (splitRun (fun x => x == 9) [.outer] (splitInit [0, 1])) ∧
    partitionRun (fun _ => true) [.pullT] (partitionInit [0, 1, 7]) =
      partitionExt [7] (partitionRun (fun _ => true) [.pullT] (partitionInit [0, 1])) ∧
    groupbyRun (K := Nat) (fun x => x) [.outer] (groupbyInit [0, 1, 7]) =
      groupbyExt [7] (groupbyRun (fun x => x) [.outer] (groupbyInit [0, 1])) :=
  ⟨(construction_is_lazy (fun x => x == 9) (fun _ => true) (fun x => x)
      [0, 1] [7]).2.2.2.1 [.outer] (by decide),
   (construction_is_lazy (T := Nat) (K := Nat) (fun x => x == 9) (fun _ => true)
      (fun x => x) [0, 1] [7]).2.2.2.2.1 [.pullT] (by decide),
   (construction_is_lazy (T := Nat) (K := Nat) (fun x => x == 9) (fun _ => true)
      (fun x => x) [0, 1] [7]).2.2.2.2.2 [.outer] (by decide)⟩

end SplitLib
